import Mathlib

/-!
# Verification of the splits-feed signal pipeline

Shallow embedding of the core data paths of the `splits-feed` repository
(team-dictionary loading, free-text team detection, same-league pair
selection, observation dedup/merge, percentage coercion, the clean/promote
step, decay-weighted scoring gates, and the audit pass), together with
proofs and refutations of the specification's claims about them.

All definitions are transcribed from the Python sources under `scripts/`.
External library calls (pandas timestamp parsing, Python `float()`) are
modelled as explicit oracle parameters; everything else is embedded
concretely.
-/

namespace SplitsFeed

/-! ## Generic list utilities

Small executable helpers mirroring Python built-ins used by the scripts:
`drop_duplicates(keep="first")`, stable `sorted(key=...)`, `max(key=...)`
(first maximiser wins, as in CPython), `min(key=...)` (first minimiser
wins), and insertion-ordered `dict` grouping. -/

variable {α : Type} {κ : Type}

/-- `drop_duplicates(subset=key, keep="first")`: keep the first row for each
key, in input order. -/
def dedupByAux [DecidableEq κ] (key : α → κ) (seen : List κ) : List α → List α
  | [] => []
  | x :: xs =>
    if key x ∈ seen then dedupByAux key seen xs
    else x :: dedupByAux key (key x :: seen) xs

/-- Entry point of `dedupByAux` with nothing seen yet. -/
def dedupBy [DecidableEq κ] (key : α → κ) (l : List α) : List α :=
  dedupByAux key [] l

/-- Insert `x` into `l` after every element whose key is `≤ key x`
(so that the fold below is a stable sort, like Python `sorted`). -/
def stableInsert [LinearOrder κ] (key : α → κ) (x : α) : List α → List α
  | [] => [x]
  | y :: ys => if key y ≤ key x then y :: stableInsert key x ys else x :: y :: ys

/-- Stable sort by a key into a linear order: Python `sorted(l, key=...)`. -/
def sortOn [LinearOrder κ] (key : α → κ) (l : List α) : List α :=
  l.foldl (fun acc x => stableInsert key x acc) []

/-- Python `max(l, key=f)`: first element with maximal key (strictly greater
keys displace the current champion; ties keep the earlier element). -/
def pyMaxBy [LinearOrder κ] (f : α → κ) : List α → Option α
  | [] => none
  | x :: xs => some (xs.foldl (fun b y => if f b < f y then y else b) x)

/-- Python `min(l, key=f)`: first element with minimal key. -/
def pyMinBy [LinearOrder κ] (f : α → κ) : List α → Option α
  | [] => none
  | x :: xs => some (xs.foldl (fun b y => if f y < f b then y else b) x)

/-- Python's `\s` whitespace class (ASCII part, as used on CSV cells). -/
def pySpace (c : Char) : Bool :=
  c == ' ' || c == '\t' || c == '\n' || c == '\r' || c == '\x0b' || c == '\x0c'

/-- Python `str.strip()` on a character list. -/
def pyStripL (l : List Char) : List Char :=
  ((l.dropWhile pySpace).reverse.dropWhile pySpace).reverse

/-- Python `str.strip()`. -/
def pyStrip (s : String) : String := ⟨pyStripL s.data⟩

/-- Python `str.upper()` (ASCII). -/
def pyUpper (s : String) : String := ⟨s.data.map Char.toUpper⟩

/-- Python `str.lower()` (ASCII). -/
def pyLower (s : String) : String := ⟨s.data.map Char.toLower⟩

/-- Whether `needle` occurs contiguously inside `hay`. -/
def segIn (needle hay : List Char) : Bool :=
  (List.range (hay.length + 1)).any fun i => needle.isPrefixOf (hay.drop i)

/-- Case-insensitive `re.search` for a literal pattern: the pattern occurs
somewhere in `hay`, compared after ASCII upcasing. -/
def ciSearch (needle hay : String) : Bool :=
  segIn (needle.data.map Char.toUpper) (hay.data.map Char.toUpper)

/-- Python `str.replace(pat, rep)`: left-to-right, non-overlapping.  The
`fuel` argument (instantiated with the haystack length, which bounds the
number of steps) keeps the recursion structural. -/
def replaceSegF (pat rep : List Char) : Nat → List Char → List Char
  | 0, l => l
  | _, [] => []
  | fuel + 1, c :: rest =>
    if pat ≠ [] ∧ pat.isPrefixOf (c :: rest) then
      rep ++ replaceSegF pat rep fuel ((c :: rest).drop pat.length)
    else
      c :: replaceSegF pat rep fuel rest

/-- Python `str.replace` on `String`. -/
def pyReplace (s pat rep : String) : String :=
  ⟨replaceSegF pat.data rep.data s.data.length s.data⟩

/-- Collapse every run of whitespace to one space
(`re.sub(r"\s+", " ", s)`); the flag records whether the previous
character was whitespace. -/
def collapseWsAux : Bool → List Char → List Char
  | _, [] => []
  | prev, c :: cs =>
    if pySpace c then
      if prev then collapseWsAux true cs else ' ' :: collapseWsAux true cs
    else c :: collapseWsAux false cs

/-- Python `str.split()` (split on whitespace runs, dropping empties). -/
def pySplit (s : String) : List String :=
  ((s.data.splitOnP pySpace).filter fun l => !l.isEmpty).map fun l => ⟨l⟩

/-- Insert `x` after every element with key `≥ key x` (stable descending
insertion; with the fold below this is Python
`sorted(l, key=..., reverse=True)`, which keeps equal keys in input
order). -/
def stableInsertDesc [LinearOrder κ] (key : α → κ) (x : α) : List α → List α
  | [] => [x]
  | y :: ys => if key x ≤ key y then y :: stableInsertDesc key x ys else x :: y :: ys

/-- Stable descending sort by key. -/
def sortOnDesc [LinearOrder κ] (key : α → κ) (l : List α) : List α :=
  l.foldl (fun acc x => stableInsertDesc key x acc) []

/-- The least element of a list of naturals, if any. -/
def minNat? (l : List Nat) : Option Nat :=
  match l with
  | [] => none
  | x :: xs => some (xs.foldl min x)

end SplitsFeed

namespace SplitsGuardClean

open SplitsFeed

/-- `_norm`: replace every character outside `[A-Za-z0-9& +./'-]` by a
space, collapse whitespace runs, and strip. -/
def normKeep (c : Char) : Bool :=
  c.isAlpha || c.isDigit || c == '&' || c == ' ' || c == '+' || c == '.' ||
  c == '/' || c == '\'' || c == '-'

/-- Collapse runs of spaces to a single space (the flag records whether the
previous kept character was a space). -/
def squeezeAux : Bool → List Char → List Char
  | _, [] => []
  | prev, c :: cs =>
    if c = ' ' then
      if prev then squeezeAux true cs else ' ' :: squeezeAux true cs
    else c :: squeezeAux false cs

/-- `_norm(s)` of `splits_guard_clean.py`. -/
def normStr (s : String) : String :=
  ⟨pyStripL (squeezeAux false (s.data.map fun c => if normKeep c then c else ' '))⟩

/-- `Spread\s*$` searched case-insensitively: `SPREAD` occurs and everything
after that occurrence is whitespace. -/
def badSpreadEnd (s : String) : Bool :=
  let H := s.data.map Char.toUpper
  (List.range (H.length + 1)).any fun i =>
    "SPREAD".data.isPrefixOf (H.drop i) && (H.drop (i + 6)).all pySpace

/-- `MLB - [A-Za-z]{3,9},?Sep` searched case-insensitively. -/
def badMlbCalendar (s : String) : Bool :=
  let H := s.data.map Char.toUpper
  (List.range (H.length + 1)).any fun i =>
    "MLB - ".data.isPrefixOf (H.drop i) &&
    (List.range 7).any fun d =>
      let k := d + 3
      decide (i + 6 + k ≤ H.length) &&
      ((H.drop (i + 6)).take k).all Char.isAlpha &&
      (("SEP".data.isPrefixOf (H.drop (i + 6 + k))) ||
       (",SEP".data.isPrefixOf (H.drop (i + 6 + k))))

/-- `re.search("|".join(BAD_PATTERNS), s, re.I)`: one of the seven
`BAD_PATTERNS` occurs in `s`. -/
def hitsBadPattern (s : String) : Bool :=
  ciSearch "Estimating resolution" s ||
  ciSearch "Betting Splits Expanded Splits" s ||
  ciSearch "Handle Bets Total Handle Bets" s ||
  ciSearch "Money dle Bets" s ||
  badSpreadEnd s ||
  badMlbCalendar s ||
  ciSearch "Chiefs ad" s

/-- `looks_bad_team`: a `BAD_PATTERNS` hit on the normalized string, or
fewer than 3 letters in it. -/
def looks_bad_team (s : String) : Bool :=
  let n := normStr s
  hitsBadPattern n || decide ((n.data.filter Char.isAlpha).length < 3)

/-- `resolve_team`: exact lookup of the normalized lower-cased string in the
alias map, then a suffix pass over the aliases (cropped-left OCR), then a
whole-word substring pass.  The alias map is the insertion-ordered
dictionary built by `load_aliases` (keys already normalized lower-case). -/
def resolve_team (aliasMap : List (String × String)) (txt : String) : Option String :=
  let s := pyLower (normStr txt)
  if s = "" then none
  else match aliasMap.lookup s with
    | some canon => some canon
    | none =>
      match aliasMap.find? (fun p => p.1.data.isSuffixOf s.data) with
      | some p => some p.2
      | none =>
        match aliasMap.find? (fun p =>
            segIn (' ' :: p.1.data ++ [' ']) (' ' :: s.data ++ [' '])) with
        | some p => some p.2
        | none => none

/-- `coerce_pct`, with Python `float()` passed in as a parsing oracle
(`parse` returns `none` where `float()` would raise).  A `none` cell models
a missing value. -/
def coerce_pct (parse : String → Option ℚ) : Option String → Option ℚ
  | none => none
  | some s =>
    if pyStrip s = "" then none
    else
      match parse (pyStrip (pyReplace s "%" "")) with
      | some v => if 0 ≤ v ∧ v ≤ 100 then some v else none
      | none => none

/-- `MARKETS` allow-list. -/
def MARKETS : List String := ["Spread", "ML", "Moneyline", "Total", "O/U", "OU"]

/-- The three market-normalization column maps of `main`
(`"Money Line"→"ML"` literal replace, then the ML alias fold, then the
Total alias fold). -/
def normalizeMarket (s : String) : String :=
  let m1 := pyReplace s "Money Line" "ML"
  let m2 := if pyUpper (pyStrip m1) ∈ ["ML", "MONEYLINE", "MONEY LINE"] then "ML" else m1
  if pyLower (pyStrip m2) ∈ ["total", "o/u", "ou"] then "Total" else m2

/-- One input row of `splits.csv` as seen by `main` after the column
rename (percent cells may be missing). -/
structure GRow where
  timestamp : String
  away_team : String
  home_team : String
  market : String
  tickets_pct : Option String
  handle_pct : Option String
  line : String
  source : String
deriving DecidableEq, Repr

/-- One surviving row, in the output column order
`[timestamp, away, home, market, tickets_pct, handle_pct, line, source]`
with the timestamp parsed. -/
structure CleanRow where
  timestamp : Int
  away : String
  home : String
  market : String
  tickets_pct : Option ℚ
  handle_pct : Option ℚ
  line : String
  source : String
deriving DecidableEq, Repr

/-- Per-row values computed by the column maps of `main`. -/
structure GMid where
  base : GRow
  tickets : Option ℚ
  handle : Option ℚ
  market : String
  away : Option String
  home : Option String
  ts : Option Int

/-- Compute every per-row column value of `main` (all of these maps are
row-local in the source, so they commute with the row filters). -/
def midOf (aliasMap : List (String × String)) (parseF : String → Option ℚ)
    (parseTs : String → Option Int) (r : GRow) : GMid :=
  { base := r
    tickets := coerce_pct parseF r.tickets_pct
    handle := coerce_pct parseF r.handle_pct
    market := normalizeMarket r.market
    away := resolve_team aliasMap r.away_team
    home := resolve_team aliasMap r.home_team
    ts := parseTs r.timestamp }

/-- The row-filtering pipeline of `main`, in source order: the
`BAD_PATTERNS` mask on the raw team columns, percent/market normalization,
the `MARKETS` filter, team resolution, the `looks_bad_team` drop, the
both-resolved-and-different filter, the timestamp-parse filter, and the
final sort by timestamp. -/
def guardClean (aliasMap : List (String × String)) (parseF : String → Option ℚ)
    (parseTs : String → Option Int) (rows : List GRow) : List CleanRow :=
  let m0 := rows.filter fun r =>
    !(hitsBadPattern r.away_team || hitsBadPattern r.home_team)
  let m1 := (m0.map (midOf aliasMap parseF parseTs)).filter fun m =>
    decide (m.market ∈ MARKETS)
  let m2 := m1.filter fun m =>
    !(looks_bad_team m.base.away_team || looks_bad_team m.base.home_team)
  let m3 := m2.filter fun m => m.away.isSome && m.home.isSome && m.away != m.home
  let m4 := m3.filter fun m => m.ts.isSome
  let sorted := sortOn (fun m => m.ts.getD 0) m4
  sorted.map fun m =>
    { timestamp := m.ts.getD 0
      away := m.away.getD ""
      home := m.home.getD ""
      market := m.market
      tickets_pct := m.tickets
      handle_pct := m.handle
      line := m.base.line
      source := m.base.source }

/-- The whole run of `main` as it affects the two files: it always writes
the clean rows to `--out`, and overwrites the persisted log `splits.csv`
with them exactly when `--promote` was passed (`prev` is the log's prior
content, `serialize` the CSV writer). -/
def guardMain {σ : Type} (aliasMap : List (String × String))
    (parseF : String → Option ℚ) (parseTs : String → Option Int)
    (rows : List GRow) (promote : Bool) (prev : σ)
    (serialize : List CleanRow → σ) : List CleanRow × σ :=
  let clean := guardClean aliasMap parseF parseTs rows
  (clean, if promote then serialize clean else prev)

end SplitsGuardClean

namespace SplitsFeed

end SplitsFeed

namespace LiveDeltaAnalysis

/-- One row of the canonical observation log `splits.csv` as read by
`live_delta_analysis.py` (`pd.read_csv(..., dtype=str)`: every cell is a
string, missing cells are `""`). -/
structure Obs where
  timestamp : String
  league : String
  away_team : String
  home_team : String
  market : String
  tickets_pct : String
  handle_pct : String
  line : String
  source : String
  event_date : String
  event_time : String
deriving DecidableEq, Repr

/-- The identity-dedup key of `load_frame`:
`["league","away_team","home_team","market","source","line","tickets_pct","handle_pct"]`. -/
def identityKey (r : Obs) : List String :=
  [r.league, r.away_team, r.home_team, r.market, r.source, r.line,
   r.tickets_pct, r.handle_pct]

/-- The dedup step of `load_frame`
(`df.drop_duplicates(subset=[...]).reset_index(drop=True)`). -/
def mergeObs (rows : List Obs) : List Obs :=
  SplitsFeed.dedupBy identityKey rows

end LiveDeltaAnalysis

namespace BoardroomRender

open SplitsFeed

/-- `HALF_LIFE_HOURS = 24.0` (the constant is identical in both copies). -/
noncomputable def HALF_LIFE_HOURS : ℝ := 24

/-- `exp_decay_weight(ts, now)` of `scripts/scripts/boardroom_render.py`.
That copy's `parse_time` checks `pd.isna` and catches every parser
exception, returning `None` whenever parsing fails, so the timestamp
reaching this function is either a parsed datetime or `None`: `None`
gets `0.5`, else `exp(-age_h / 24)` where `age_h` is
`(now - ts).total_seconds() / 3600.0` (`now` and `ts` in seconds). -/
noncomputable def exp_decay_weight (ts : Option ℝ) (now : ℝ) : ℝ :=
  match ts with
  | none => 0.5
  | some t => Real.exp (-((now - t) / 3600) / HALF_LIFE_HOURS)

/-- A timestamp as produced by `parse_time` of
`src/scripts/boardroom_render.py`: a Python `None` (only from the
`except` branch), a pandas `NaT` (what
`pd.to_datetime(..., errors="coerce")` yields on unparseable input, and
what `.to_pydatetime()` passes through), or a parsed datetime (seconds
since the epoch). -/
inductive PyTime where
  | pynone : PyTime
  | nat : PyTime
  | val : ℝ → PyTime

/-- An IEEE double as far as this code observes it: `nan` or a real. -/
inductive PyFloat where
  | nan : PyFloat
  | val : ℝ → PyFloat

/-- Division of a float by a finite nonzero constant: `nan` propagates. -/
noncomputable def PyFloat.divR : PyFloat → ℝ → PyFloat
  | PyFloat.nan, _ => PyFloat.nan
  | PyFloat.val x, c => PyFloat.val (x / c)

/-- Float negation: `nan` propagates. -/
noncomputable def PyFloat.neg : PyFloat → PyFloat
  | PyFloat.nan => PyFloat.nan
  | PyFloat.val x => PyFloat.val (-x)

/-- `math.exp` on a float: `exp(nan) = nan`. -/
noncomputable def pyExp : PyFloat → PyFloat
  | PyFloat.nan => PyFloat.nan
  | PyFloat.val x => PyFloat.val (Real.exp x)

/-- `(now - ts).total_seconds()` in the src copy: subtracting `NaT` from
a datetime gives `NaT`, whose `total_seconds()` is float `nan`.  (The
`None` row is unreachable: `exp_decay_weight` returns `0.5` first.) -/
noncomputable def totalSeconds (now : ℝ) : PyTime → PyFloat
  | PyTime.pynone => PyFloat.nan
  | PyTime.nat => PyFloat.nan
  | PyTime.val t => PyFloat.val (now - t)

/-- `parse_time` of `src/scripts/boardroom_render.py`:
`pd.to_datetime(str(x), utc=True, errors="coerce").to_pydatetime()` with
the pandas parser as an oracle.  `errors="coerce"` turns a parse failure
into `NaT` instead of raising, so the `except: return None` branch is
dead for string input. -/
def parse_time (pdParse : String → Option ℝ) (x : String) : PyTime :=
  match pdParse x with
  | some t => PyTime.val t
  | none => PyTime.nat

/-- `exp_decay_weight(ts, now)` of `src/scripts/boardroom_render.py`:
`0.5` only when `ts is None`; any other timestamp, `NaT` included, goes
through `exp(-((now - ts).total_seconds()/3600.0) / HALF_LIFE_HOURS)`. -/
noncomputable def exp_decay_weight_src (ts : PyTime) (now : ℝ) : PyFloat :=
  match ts with
  | PyTime.pynone => PyFloat.val 0.5
  | ts =>
      pyExp (PyFloat.divR (PyFloat.neg (PyFloat.divR (totalSeconds now ts) 3600))
        HALF_LIFE_HOURS)

/-- One row of the pre-gate rollup built in `main` (the fields written into
`rows` before the gates; scores are modelled as rationals). -/
structure OutRow where
  entity : String
  score : ℚ
  signals : Int
  w24 : Int
  w6 : Int
  decayed : ℚ
  clv_boost : Int
  last_seen : String
  sample_text : String
deriving DecidableEq, Repr

/-- The `stars` closure of `main`:
`"5★" if s >= star5 else ("4★" if s >= star4 else "")`. -/
def starsOf (star4 star5 : ℚ) (s : ℚ) : String :=
  if s ≥ star5 then "5★" else if s ≥ star4 then "4★" else ""

/-- The gate-and-star tail of `main`: filter `signals >= min_signals`,
filter `score >= min(star4, star5)`, sort (pandas `sort_values`, modelled
as an arbitrary permutation step `sortStep`), assign stars, and keep only
starred rows.  The result pairs each surviving row with its star label. -/
def applyGates (minSignals : Int) (star4 star5 : ℚ)
    (sortStep : List OutRow → List OutRow) (rows : List OutRow) :
    List (OutRow × String) :=
  let g1 := rows.filter fun r => decide (minSignals ≤ r.signals)
  let g2 := g1.filter fun r => decide (min star4 star5 ≤ r.score)
  let starred := (sortStep g2).map fun r => (r, starsOf star4 star5 r.score)
  starred.filter fun p => p.2 != ""

/-- A loaded CSV, as much of it as `possible_clv_boost` inspects: the
column names and, per row, a cell per column (an association list; a
missing cell reads as `""`). -/
structure Frame where
  cols : List String
  rows : List (List (String × String))

/-- Read one cell. -/
def cell (r : List (String × String)) (c : String) : String :=
  (r.lookup c).getD ""

/-- `possible_clv_boost(splits, entity)` (the fuller draft in
`scripts/scripts/boardroom_render.py`; the other copy returns 0 on a
strict prefix of the same branch structure).  Python `float()` is the
`toFloat` oracle.  Every exit of the source returns 0: the inner loop's
only `return` is the "without side, skip risky math" one. -/
def possible_clv_boost (toFloat : String → Option ℚ) (splits : Option Frame)
    (entity : String) : Int :=
  match splits with
  | none => 0
  | some df =>
    if df.rows.isEmpty then 0
    else
      let cols_team := df.cols.filter fun c =>
        ciSearch "team" c || ciSearch "away" c || ciSearch "home" c
      if cols_team.isEmpty then 0
      else
        let sub := df.rows.filter fun r => cols_team.any fun c => ciSearch entity (cell r c)
        if sub.isEmpty then 0
        else
          let opens := df.cols.filter fun c => ciSearch "open" c
          let curs := df.cols.filter fun c =>
            ciSearch "curr" c || ciSearch "live" c || ciSearch "now" c
          if opens.isEmpty || curs.isEmpty then 0
          else
            if opens.any (fun o => curs.any fun c =>
                !(sub.filterMap (fun r => toFloat (cell r o))).isEmpty &&
                !(sub.filterMap (fun r => toFloat (cell r c))).isEmpty) then
              0
            else
              0

end BoardroomRender

namespace AuditSplits

open SplitsFeed

/-- The `KNOWN_LEAGUES` table of `audit_splits.py`. -/
def KNOWN_LEAGUES : List (String × List String) :=
  [("NFL", ["Patriots", "Raiders", "Giants", "Vikings", "Falcons", "Dolphins",
            "Bills", "Broncos", "Chargers", "Cardinals", "Ravens", "Chiefs",
            "Cowboys", "Packers", "Bears", "Browns", "Jets"]),
   ("MLB", ["Yankees", "Blue Jays", "Giants", "Diamondbacks", "Reds",
            "Cardinals", "Brewers", "Dodgers", "Red Sox", "Guardians",
            "Padres", "Marlins", "Orioles", "Mets", "Phillies", "Nationals",
            "Cubs", "Rays"]),
   ("NCAAF", ["Oklahoma State", "Oregon", "Northwestern", "Missouri",
              "Louisiana", "LSU", "Michigan", "Ohio State", "Alabama",
              "Clemson"])]

/-- `guess_league(away, home)`: first league in table order one of whose
team names occurs (lower-cased substring) in either team cell. -/
def guess_league (away home : String) : Option String :=
  let a := pyLower away
  let h := pyLower home
  (KNOWN_LEAGUES.find? fun p => p.2.any fun t =>
    let tl := pyLower t
    segIn tl.data a.data || segIn tl.data h.data).map (·.1)

/-- `looks_gibberish(s)`: empty, or more than 80% of characters outside
the allowed set (alphanumerics and `" .,-:/@%+()"`); the float ratio is
modelled in `ℚ`. -/
def looks_gibberish (s : String) : Bool :=
  if s = "" then true
  else
    let good := (s.data.filter fun ch =>
      ch.isAlphanum || [' ', '.', ',', '-', ':', '/', '@', '%', '+', '(', ')'].contains ch).length
    decide ((((s.length : ℚ) - good) / max 1 (s.length : ℚ)) > 4 / 5)

/-- One observation-log record restricted to the `EXPECTED` columns
(`load_df` strips/normalizes and fills every expected column, so cells are
plain strings, `""` when absent). -/
structure ARec where
  timestamp : String
  league : String
  away_team : String
  home_team : String
  market : String
  tickets_pct : String
  handle_pct : String
  line : String
  source : String
deriving DecidableEq, Repr

/-- The per-row body of `main`'s loop: fill an empty/`unknown` league from
`guess_league`, keep the row, and compute the optional flag reason
(`no_teams`, `gibberish`, or `weak`). -/
def auditStep (r : ARec) : ARec × Option String :=
  let rec1 :=
    if r.league = "" ∨ pyLower r.league = "unknown" then
      match guess_league r.away_team r.home_team with
      | some g => { r with league := g }
      | none => r
    else r
  let reason :=
    if rec1.away_team = "" ∧ rec1.home_team = "" then some "no_teams"
    else if looks_gibberish (pyStrip (rec1.away_team ++ " " ++ rec1.home_team)) then
      some "gibberish"
    else if (rec1.league = "" ∨ pyLower rec1.league = "unknown") ∧
            (rec1.market = "" ∨ pyLower rec1.market = "unknown") ∧
            rec1.tickets_pct = "" ∧ rec1.handle_pct = "" ∧ rec1.line = "" then
      some "weak"
    else none
  (rec1, reason)

/-- `main`'s loop over the input rows, accumulating the `cleaned` list and
the `flagged` list (each flagged record carries its `_flag_reason`). -/
def audit_main : List ARec → List ARec × List (ARec × String)
  | [] => ([], [])
  | r :: rs =>
    let step := auditStep r
    let rest := audit_main rs
    (step.1 :: rest.1,
     match step.2 with
     | some why => (step.1, why) :: rest.2
     | none => rest.2)

end AuditSplits

namespace IngestTwitterCsv

open SplitsFeed

/-- A hit of `detect_teams`: `(team, league, position)`; the league is
`team_to_league.get(t)`, hence optional. -/
structure Hit where
  team : String
  league : Option String
  pos : Nat
deriving DecidableEq, Repr

/-- A compiled alias pattern of `load_dictionaries`: the alias's
whitespace-split tokens (joined by `\s+` in the regex), the normalized
alias, and the list of teams registered for it. -/
structure TPattern where
  toks : List String
  aliasName : String
  teams : List String
deriving DecidableEq, Repr

/-- Alias normalization of `load_dictionaries`:
`re.sub(r"\s+", " ", str(a).strip()).upper()`. -/
def normAlias (a : String) : String :=
  pyUpper ⟨collapseWsAux false (pyStripL a.data)⟩

/-- Python dict assignment `m[k] = v` (update in place, else append). -/
def upsert (k v : String) : List (String × String) → List (String × String)
  | [] => [(k, v)]
  | (k', v') :: rest => if k' = k then (k, v) :: rest else (k', v') :: upsert k v rest

/-- `alias_to_teams[norm].add(team)` on the `defaultdict(set)`:
per-alias team sets in first-insertion key order. -/
def multiAdd (k t : String) : List (String × List String) → List (String × List String)
  | [] => [(k, [t])]
  | (k', ts) :: rest =>
    if k' = k then (k', if t ∈ ts then ts else ts ++ [t]) :: rest
    else (k', ts) :: multiAdd k t rest

/-- `load_dictionaries(droot)` on already-parsed dictionary files
`(league, [(team, aliases)])`: build `team_to_league` (dict assignment) and
`alias_to_teams` (alias → set of teams), then compile one pattern per alias
in dict order, skipping aliases with no tokens. -/
def load_dictionaries (files : List (String × List (String × List String))) :
    List (String × String) × List TPattern :=
  let st := files.foldl (fun st (file : String × List (String × List String)) =>
    file.2.foldl (fun st2 (td : String × List String) =>
      let t2l := upsert td.1 file.1 st2.1
      let a2t := (td.2 ++ [td.1]).foldl (fun m a =>
        let n := normAlias a
        if n = "" then m else multiAdd n td.1 m) st2.2
      (t2l, a2t)) st) (([] : List (String × String)), ([] : List (String × List String)))
  let patterns := st.2.filterMap fun kv =>
    let toks := pySplit kv.1
    if toks.isEmpty then none else some ⟨toks, kv.1, kv.2⟩
  (st.1, patterns)

/-- Match the token sequence of one alias pattern starting at position `i`
of the upper-cased text: each token literally, consecutive tokens separated
by `\s+`.  The whitespace run is forced to be maximal (tokens start with a
non-space character), so the match end is deterministic. -/
def tokSeqEnd (H : List Char) : Nat → List String → Option Nat
  | i, [] => some i
  | i, [t] => if t.data.isPrefixOf (H.drop i) then some (i + t.length) else none
  | i, t :: t2 :: rest =>
    if t.data.isPrefixOf (H.drop i) then
      let j := i + t.length
      let w := ((H.drop j).takeWhile pySpace).length
      if w = 0 then none else tokSeqEnd H (j + w) (t2 :: rest)
    else none

/-- The compiled pattern
`(?i)(?<![A-Za-z]) tok1 \s+ tok2 ... (?![A-Za-z])` matches at position `i`
of the upper-cased text `H`. -/
def rxMatchAt (H : List Char) (toks : List String) (i : Nat) : Bool :=
  (decide (i = 0) || (H.get? (i - 1)).all fun c => !c.isAlpha) &&
  match tokSeqEnd H i toks with
  | some e => (H.get? e).all fun c => !c.isAlpha
  | none => false

/-- All match positions of one pattern, ascending (the starts found by
`rx.finditer`; overlap skipping never discards the leftmost start of a
pattern, which is all `detect_teams` keeps per team). -/
def occList (H : List Char) (toks : List String) : List Nat :=
  (List.range (H.length + 1)).filter fun i => rxMatchAt H toks i

/-- `earliest[t] = (lg, pos)` when `t` is new or `pos` improves the stored
position; dict key order is first-insertion order. -/
def earliestIns (t : String) (lg : Option String) (pos : Nat) :
    List (String × Option String × Nat) → List (String × Option String × Nat)
  | [] => [(t, lg, pos)]
  | (t', v) :: rest =>
    if t' = t then
      if pos < v.2 then (t, (lg, pos)) :: rest else (t', v) :: rest
    else (t', v) :: earliestIns t lg pos rest

/-- The raw hit list of `detect_teams`: one `(team, league, position)`
triple per pattern match and per team of the matched alias, in pattern
order. -/
def rawHits (team_to_league : List (String × String)) (patterns : List TPattern)
    (text : String) : List (String × Option String × Nat) :=
  patterns.flatMap fun p =>
    (occList (text.data.map Char.toUpper) p.toks).flatMap fun pos =>
      p.teams.map fun t => (t, team_to_league.lookup t, pos)

/-- `detect_teams(text, patterns, team_to_league)`: collect a hit per
(pattern match, team), reduce to the earliest position per distinct team,
and return the teams sorted by position. -/
def detect_teams (team_to_league : List (String × String))
    (patterns : List TPattern) (text : String) : List Hit :=
  let hits := rawHits team_to_league patterns text
  if hits.isEmpty then []
  else
    let earliest := hits.foldl
      (fun acc (h : String × Option String × Nat) => earliestIns h.1 h.2.1 h.2.2 acc) []
    let out := earliest.map fun e => Hit.mk e.1 e.2.1 e.2.2
    sortOn Hit.pos out

/-- `by_league[lg].append((t, pos))` grouping, keys in first-insertion
order, values in arrival order. -/
def groupIns (lg : Option String) (tp : String × Nat) :
    List (Option String × List (String × Nat)) → List (Option String × List (String × Nat))
  | [] => [(lg, [tp])]
  | (k, arr) :: rest =>
    if k = lg then (k, arr ++ [tp]) :: rest else (k, arr) :: groupIns lg tp rest

/-- The `by_league` grouping of `choose_pair_from_hits`. -/
def buildGroups (hits : List Hit) : List (Option String × List (String × Nat)) :=
  hits.foldl (fun acc h => groupIns h.league (h.team, h.pos) acc) []

/-- The second-earliest position of a league's hits
(`second_pos` in the source: `10**9` when the league has fewer than two). -/
def second_pos (groups : List (Option String × List (String × Nat)))
    (lg : Option String) : Nat :=
  match sortOn Prod.snd ((groups.lookup lg).getD []) with
  | _ :: y :: _ => y.2
  | _ => 10 ^ 9

/-- The hint branch of `choose_pair_from_hits`: when a hint league is
present with at least two grouped hits, its earliest two teams. -/
def hintBranch (by_league : List (Option String × List (String × Nat)))
    (league_hint : Option String) : Option (String × String × Option String × String) :=
  match league_hint with
  | some h =>
    match by_league.lookup (some h) with
    | some arr =>
      if 2 ≤ arr.length then
        match sortOn Prod.snd arr with
        | x :: y :: _ => some (x.1, y.1, some h, "HINT_DOMINANT")
        | _ => none
      else none
    | none => none
  | none => none

/-- The `tied` local of `choose_pair_from_hits`: the leagues whose hit
count equals the champion's. -/
def tiedOf (by_league : List (Option String × List (String × Nat)))
    (dom0 : Option String) : List (Option String) :=
  (by_league.map (·.1)).filter fun lg =>
    decide (((by_league.lookup lg).getD []).length =
      ((by_league.lookup dom0).getD []).length)

/-- The `dominant` local of `choose_pair_from_hits`: on a count tie, the
tied league with the earliest second-team position. -/
def winnerOf (by_league : List (Option String × List (String × Nat)))
    (dom0 : Option String) : Option String :=
  if 1 < (tiedOf by_league dom0).length then
    (pyMinBy (second_pos by_league) (tiedOf by_league dom0)).getD dom0
  else dom0

/-- The dominant-league branch of `choose_pair_from_hits`: most hits wins,
count ties broken by earliest second-team position, `None` when the winner
has fewer than two hits. -/
def dominantBranch (by_league : List (Option String × List (String × Nat))) :
    Option (String × String × Option String × String) :=
  match pyMaxBy (fun lg => ((by_league.lookup lg).getD []).length)
      (by_league.map (·.1)) with
  | none => none
  | some dom0 =>
    match sortOn Prod.snd ((by_league.lookup (winnerOf by_league dom0)).getD []) with
    | x :: y :: _ => some (x.1, y.1, winnerOf by_league dom0, "DOMINANT_LEAGUE")
    | _ => none

/-- `choose_pair_from_hits(hits, league_hint)`: too few hits → `None`;
else the hint branch (an early `return` in the source), falling through to
the dominant-league branch. -/
def choose_pair_from_hits (hits : List Hit) (league_hint : Option String) :
    Option (String × String × Option String × String) :=
  if hits.length < 2 then none
  else
    match hintBranch (buildGroups hits) league_hint with
    | some r => some r
    | none => dominantBranch (buildGroups hits)

/-- Specification-side view: the hits of one league, in hit order. -/
def leagueHits (hits : List Hit) (lg : Option String) : List Hit :=
  hits.filter fun h => h.league == lg

/-- Proof helper for `earliestIns` folds: combine a stored
league/position with the minimum of the remaining positions (the stored
league equals `lg` whenever the per-team league is constant, which is how
`detect_teams` builds its hits). -/
def mergeMin (stored : Option (Option String × Nat)) (m : Option Nat)
    (lg : Option String) : Option (Option String × Nat) :=
  match stored, m with
  | none, none => none
  | some v, none => some v
  | none, some q => some (lg, q)
  | some v, some q => some (lg, min v.2 q)

/-- Proof helper for `groupIns` folds: append freshly grouped pairs to a
stored group. -/
def groupAppend (stored : Option (List (String × Nat))) (l : List (String × Nat)) :
    Option (List (String × Nat)) :=
  match stored, l with
  | none, [] => none
  | none, l => some l
  | some v, l => some (v ++ l)

/-- Specification-side view for the claims: team `t` has an alias match at
position `pos` of `text` (some pattern registered for `t` matches there). -/
def teamOccursAt (patterns : List TPattern) (text : String) (t : String)
    (pos : Nat) : Prop :=
  ∃ p ∈ patterns, t ∈ p.teams ∧ rxMatchAt (text.data.map Char.toUpper) p.toks pos = true

end IngestTwitterCsv

namespace AnalyzeTwitterText

open SplitsFeed

/-- `add_alias` of `load_dicts`: strip/upcase, drop empties, first write
wins. -/
def add_alias (a team : String) (m : List (String × String)) : List (String × String) :=
  let n := pyUpper (pyStrip a)
  if n = "" then m
  else if (m.lookup n).isSome then m else m ++ [(n, team)]

/-- `seed_aliases(team)`: the team name plus, for multi-word names, the
city (all but the last word) and the nickname (last word). -/
def seed_aliases (team : String) : List String :=
  let parts := pySplit team
  if 2 ≤ parts.length then
    [team, String.intercalate " " parts.dropLast, parts.getLastD ""]
  else [team]

/-- The built-in `extras` shorthand table, in source order. -/
def extras : List (String × String) :=
  [("DAL", "Dallas Cowboys"), ("BUF", "Buffalo Bills"), ("KC", "Kansas City Chiefs"),
   ("TB", "Tampa Bay Buccaneers"), ("RAYS", "Tampa Bay Rays"),
   ("LIGHTNING", "Tampa Bay Lightning"), ("RANGERS", "Texas Rangers"),
   ("KINGS", "Los Angeles Kings"), ("LAKERS", "Los Angeles Lakers"),
   ("CLIPPERS", "LA Clippers"), ("RAMS", "Los Angeles Rams"),
   ("CHARGERS", "Los Angeles Chargers"), ("SEAHAWKS", "Seattle Seahawks"),
   ("MARINERS", "Seattle Mariners"), ("WARRIORS", "Golden State Warriors"),
   ("ORIOLES", "Baltimore Orioles"), ("ASTROS", "Houston Astros"),
   ("PIRATES", "Pittsburgh Pirates")]

/-- The body of `load_dicts`'s per-team loop: record the team, then
register its seeded aliases and its listed aliases. -/
def loadEntry (st : List (String × String) × List String) (td : String × List String) :
    List (String × String) × List String :=
  let teams := if td.1 ∈ st.2 then st.2 else st.2 ++ [td.1]
  let m1 := (seed_aliases td.1).foldl (fun m a => add_alias a td.1 m) st.1
  let m2 := td.2.foldl (fun m a => add_alias a td.1 m) m1
  (m2, teams)

/-- `load_dicts(droot)` on already-parsed dictionary files
`[(team, aliases)]`: seed and register aliases first-write-wins, merge the
`extras` shorthands for known teams, and sort the alias list
longest-first.  Returns `(alias_to_team, aliases_sorted)`. -/
def load_dicts (files : List (List (String × List String))) :
    List (String × String) × List String :=
  let st := files.foldl (fun st file => file.foldl loadEntry st)
    (([] : List (String × String)), ([] : List String))
  let withExtras := extras.foldl (fun m p =>
    if p.2 ∈ st.2 then add_alias p.1 p.2 m else m) st.1
  (withExtras, sortOnDesc String.length (withExtras.map (·.1)))

/-- The pattern `(?<![A-Z0-9])alias(?![A-Z0-9])` (with `re.I`) matches at
position `i` of the upper-cased text: the alias literally, with no
alphanumeric directly before or after. -/
def rxHitAt (a : String) (T : String) (i : Nat) : Bool :=
  (decide (i = 0) || (T.data.get? (i - 1)).all fun c => !c.isAlphanum) &&
  a.data.isPrefixOf (T.data.drop i) &&
  (T.data.get? (i + a.length)).all fun c => !c.isAlphanum

/-- `rx.search(T)` for the compiled alias pattern. -/
def rxSearch (a : String) (T : String) : Bool :=
  (List.range (T.data.length + 1)).any fun i => rxHitAt a T i

/-- `detect_teams(text)` of `analyze_twitter_text.py`: probe each pattern
in `aliases_sorted` order (longest alias first), collect the canonical
team of each alias that occurs anywhere, and dedup preserving that
probe order.  No positions are recorded. -/
def detect_teams (alias_to_team : List (String × String))
    (aliases_sorted : List String) (text : String) : List String :=
  let T := pyUpper text
  let hits := aliases_sorted.filterMap fun a =>
    if rxSearch a T then alias_to_team.lookup a else none
  SplitsFeed.dedupBy id hits

/-- The alias normalization used by `add_alias`. -/
def normA (a : String) : String := pyUpper (pyStrip a)

/-- Specification-side view of `load_dicts`: the `(normalized alias, team)`
registration attempts of one dictionary entry, in program order (seeds
before the listed aliases), empty aliases dropped. -/
def regsOfEntry (td : String × List String) : List (String × String) :=
  ((seed_aliases td.1 ++ td.2).map fun a => (normA a, td.1)).filter fun p => p.1 != ""

/-- The team set accumulated by `load_dicts` over the dictionary files. -/
def teamsOf (files : List (List (String × List String))) : List String :=
  files.foldl (fun acc file =>
    file.foldl (fun acc td => if td.1 ∈ acc then acc else acc ++ [td.1]) acc) []

/-- Specification-side view: every registration attempt of `load_dicts`, in
program order — all dictionary entries, then the `extras` whose team is
known. -/
def regStream (files : List (List (String × List String))) : List (String × String) :=
  (files.flatMap fun file => file.flatMap regsOfEntry) ++
    ((extras.filter fun p => decide (p.2 ∈ teamsOf files)).map fun p => (normA p.1, p.2))

/-- First-write-wins registration of a stream of `(alias, team)` pairs into
an association list (the effect of a sequence of `add_alias` calls on
already-normalized nonempty aliases). -/
def firstWins (m : List (String × String)) (l : List (String × String)) :
    List (String × String) :=
  l.foldl (fun m p => if (m.lookup p.1).isSome then m else m ++ [p]) m

end AnalyzeTwitterText

/-! ## Lemmas about the generic helpers -/

namespace SplitsFeed

variable {α : Type} {κ : Type}

theorem dedupByAux_idem [DecidableEq κ] (key : α → κ) (l : List α) :
    ∀ seen, dedupByAux key seen (dedupByAux key seen l) = dedupByAux key seen l := by
  induction l with
  | nil => intro seen; rfl
  | cons x xs ih =>
    intro seen
    by_cases hx : key x ∈ seen
    · simp only [dedupByAux, if_pos hx, ih]
    · simp only [dedupByAux, if_neg hx, ih]

theorem dedupByAux_sublist [DecidableEq κ] (key : α → κ) (l : List α) :
    ∀ seen, List.Sublist (dedupByAux key seen l) l := by
  induction l with
  | nil => intro seen; exact List.Sublist.refl _
  | cons x xs ih =>
    intro seen
    by_cases hx : key x ∈ seen
    · simpa only [dedupByAux, if_pos hx] using (ih seen).cons x
    · simpa only [dedupByAux, if_neg hx] using (ih (key x :: seen)).cons₂ x

theorem dedupByAux_nodupKeys [DecidableEq κ] (key : α → κ) (l : List α) :
    ∀ seen, ((dedupByAux key seen l).map key).Nodup ∧
      ∀ k ∈ (dedupByAux key seen l).map key, k ∉ seen := by
  induction l with
  | nil => intro seen; exact ⟨List.nodup_nil, by simp [dedupByAux]⟩
  | cons x xs ih =>
    intro seen
    by_cases hx : key x ∈ seen
    · simpa only [dedupByAux, if_pos hx] using ih seen
    · obtain ⟨hnd, hout⟩ := ih (key x :: seen)
      simp only [dedupByAux, if_neg hx, List.map_cons, List.nodup_cons]
      refine ⟨⟨fun hmem => ?_, hnd⟩, ?_⟩
      · exact (hout _ hmem) (List.mem_cons_self _ _)
      · intro k hk
        rcases List.mem_cons.mp hk with hk | hk
        · simpa [hk] using hx
        · exact fun hks => (hout _ hk) (List.mem_cons_of_mem _ hks)

theorem dedupByAux_covers [DecidableEq κ] (key : α → κ) (l : List α) :
    ∀ seen, ∀ x ∈ l, key x ∈ seen ∨ key x ∈ (dedupByAux key seen l).map key := by
  induction l with
  | nil => intro seen x hx; cases hx
  | cons y ys ih =>
    intro seen x hx
    by_cases hy : key y ∈ seen
    · rcases List.mem_cons.mp hx with rfl | hx
      · left; exact hy
      · simpa only [dedupByAux, if_pos hy] using ih seen x hx
    · rcases List.mem_cons.mp hx with rfl | hx
      · right; simp [dedupByAux, if_neg hy]
      · rcases ih (key y :: seen) x hx with hmem | hmem
        · rcases List.mem_cons.mp hmem with heq | hmem
          · right; simp [dedupByAux, if_neg hy, heq]
          · left; exact hmem
        · right; simp [dedupByAux, if_neg hy, hmem]

theorem dedupBy_idem [DecidableEq κ] (key : α → κ) (l : List α) :
    dedupBy key (dedupBy key l) = dedupBy key l :=
  dedupByAux_idem key l []

theorem dedupBy_sublist [DecidableEq κ] (key : α → κ) (l : List α) :
    List.Sublist (dedupBy key l) l :=
  dedupByAux_sublist key l []

theorem dedupBy_nodupKeys [DecidableEq κ] (key : α → κ) (l : List α) :
    ((dedupBy key l).map key).Nodup :=
  (dedupByAux_nodupKeys key l []).1

theorem dedupBy_covers [DecidableEq κ] (key : α → κ) (l : List α) :
    ∀ x ∈ l, key x ∈ (dedupBy key l).map key := by
  intro x hx
  rcases dedupByAux_covers key l [] x hx with h | h
  · cases h
  · exact h

end SplitsFeed

/-! ## Claim theorems -/

open SplitsFeed

/-- **C4.** The duplicate-collapsing merge of `live_delta_analysis.load_frame`
(`drop_duplicates` on the identity tuple
`(league, away, home, market, source, line, ticketsPct, handlePct)`) is
idempotent; the merged output is a subsequence of the input (non-duplicate
rows kept in original order); each identity tuple occurs at most once in
the output; and every input row's identity tuple is represented by exactly
one output row. -/
theorem claim_C4_merge_idempotent_dedup (rows : List LiveDeltaAnalysis.Obs) :
    LiveDeltaAnalysis.mergeObs (LiveDeltaAnalysis.mergeObs rows) =
      LiveDeltaAnalysis.mergeObs rows ∧
    List.Sublist (LiveDeltaAnalysis.mergeObs rows) rows ∧
    ((LiveDeltaAnalysis.mergeObs rows).map LiveDeltaAnalysis.identityKey).Nodup ∧
    ∀ r ∈ rows, LiveDeltaAnalysis.identityKey r ∈
      (LiveDeltaAnalysis.mergeObs rows).map LiveDeltaAnalysis.identityKey := by
  refine ⟨dedupBy_idem _ rows, dedupBy_sublist _ rows, dedupBy_nodupKeys _ rows, ?_⟩
  exact dedupBy_covers _ rows

namespace SplitsFeed

theorem stableInsert_perm [LinearOrder κ] (key : α → κ) (x : α) (l : List α) :
    List.Perm (stableInsert key x l) (x :: l) := by
  induction l with
  | nil => exact List.Perm.refl _
  | cons y ys ih =>
    by_cases h : key y ≤ key x
    · simp only [stableInsert, if_pos h]
      exact (ih.cons y).trans (List.Perm.swap x y ys)
    · simp only [stableInsert, if_neg h]
      exact List.Perm.refl _

theorem sortOn_foldl_perm [LinearOrder κ] (key : α → κ) (l acc : List α) :
    List.Perm (l.foldl (fun acc x => stableInsert key x acc) acc) (acc ++ l) := by
  induction l generalizing acc with
  | nil => simp
  | cons x xs ih =>
    simp only [List.foldl_cons]
    refine (ih (stableInsert key x acc)).trans ?_
    refine (((stableInsert_perm key x acc).append_right xs).trans ?_)
    exact List.perm_middle.symm

theorem sortOn_perm [LinearOrder κ] (key : α → κ) (l : List α) :
    List.Perm (sortOn key l) l := by
  simpa using sortOn_foldl_perm key l []

theorem stableInsert_pairwise [LinearOrder κ] (key : α → κ) (x : α) (l : List α)
    (hl : l.Pairwise fun a b => key a ≤ key b) :
    (stableInsert key x l).Pairwise fun a b => key a ≤ key b := by
  induction l with
  | nil => simp [stableInsert]
  | cons y ys ih =>
    rcases List.pairwise_cons.mp hl with ⟨hy, hys⟩
    by_cases h : key y ≤ key x
    · simp only [stableInsert, if_pos h]
      refine List.pairwise_cons.mpr ⟨?_, ih hys⟩
      intro b hb
      rcases List.mem_cons.mp ((stableInsert_perm key x ys).mem_iff.mp hb) with rfl | hb'
      · exact h
      · exact hy b hb'
    · simp only [stableInsert, if_neg h]
      have hx : key x ≤ key y := le_of_not_le h
      refine List.pairwise_cons.mpr ⟨?_, hl⟩
      intro b hb
      rcases List.mem_cons.mp hb with rfl | hb
      · exact hx
      · exact le_trans hx (hy b hb)

theorem sortOn_foldl_pairwise [LinearOrder κ] (key : α → κ) (l : List α) :
    ∀ acc, (acc.Pairwise fun a b => key a ≤ key b) →
      ((l.foldl (fun acc x => stableInsert key x acc) acc).Pairwise
        fun a b => key a ≤ key b) := by
  induction l with
  | nil => intro acc hacc; exact hacc
  | cons x xs ih =>
    intro acc hacc
    exact ih _ (stableInsert_pairwise key x acc hacc)

theorem sortOn_pairwise [LinearOrder κ] (key : α → κ) (l : List α) :
    (sortOn key l).Pairwise fun a b => key a ≤ key b :=
  sortOn_foldl_pairwise key l [] (by simp)

theorem stableInsertDesc_perm [LinearOrder κ] (key : α → κ) (x : α) (l : List α) :
    List.Perm (stableInsertDesc key x l) (x :: l) := by
  induction l with
  | nil => exact List.Perm.refl _
  | cons y ys ih =>
    by_cases h : key x ≤ key y
    · simp only [stableInsertDesc, if_pos h]
      exact (ih.cons y).trans (List.Perm.swap x y ys)
    · simp only [stableInsertDesc, if_neg h]
      exact List.Perm.refl _

theorem sortOnDesc_perm [LinearOrder κ] (key : α → κ) (l : List α) :
    List.Perm (sortOnDesc key l) l := by
  have haux : ∀ acc, List.Perm
      (l.foldl (fun acc x => stableInsertDesc key x acc) acc) (acc ++ l) := by
    induction l with
    | nil => intro acc; simp
    | cons x xs ih =>
      intro acc
      simp only [List.foldl_cons]
      refine (ih (stableInsertDesc key x acc)).trans ?_
      refine ((stableInsertDesc_perm key x acc).append_right xs).trans ?_
      exact List.perm_middle.symm
  simpa using haux []

theorem stableInsertDesc_pairwise [LinearOrder κ] (key : α → κ) (x : α) (l : List α)
    (hl : l.Pairwise fun a b => key b ≤ key a) :
    (stableInsertDesc key x l).Pairwise fun a b => key b ≤ key a := by
  induction l with
  | nil => simp [stableInsertDesc]
  | cons y ys ih =>
    rcases List.pairwise_cons.mp hl with ⟨hy, hys⟩
    by_cases h : key x ≤ key y
    · simp only [stableInsertDesc, if_pos h]
      refine List.pairwise_cons.mpr ⟨?_, ih hys⟩
      intro b hb
      rcases List.mem_cons.mp ((stableInsertDesc_perm key x ys).mem_iff.mp hb) with rfl | hb'
      · exact h
      · exact hy b hb'
    · simp only [stableInsertDesc, if_neg h]
      have hx : key y ≤ key x := le_of_not_le h
      refine List.pairwise_cons.mpr ⟨?_, hl⟩
      intro b hb
      rcases List.mem_cons.mp hb with rfl | hb
      · exact hx
      · exact le_trans (hy b hb) hx

theorem sortOnDesc_pairwise [LinearOrder κ] (key : α → κ) (l : List α) :
    (sortOnDesc key l).Pairwise fun a b => key b ≤ key a := by
  have haux : ∀ acc, (acc.Pairwise fun a b => key b ≤ key a) →
      ((l.foldl (fun acc x => stableInsertDesc key x acc) acc).Pairwise
        fun a b => key b ≤ key a) := by
    induction l with
    | nil => intro acc hacc; exact hacc
    | cons x xs ih =>
      intro acc hacc
      exact ih _ (stableInsertDesc_pairwise key x acc hacc)
  exact haux [] (by simp)

end SplitsFeed

/-- **C9.** The closing-line-value boost never guesses a sign: with the
columns these sources provide, every branch of `possible_clv_boost`
returns 0, so the +1 bonus is never added, for every splits table, entity
and `float()` behavior. -/
theorem claim_C9_clv_boost_always_zero (toFloat : String → Option ℚ)
    (splits : Option BoardroomRender.Frame) (entity : String) :
    BoardroomRender.possible_clv_boost toFloat splits entity = 0 := by
  cases splits with
  | none => rfl
  | some df => simp [BoardroomRender.possible_clv_boost]

/-- **C8 counterexample.** In `src/scripts/boardroom_render.py` an
unparseable timestamp string does not get weight `0.5`: `parse_time`
uses `errors="coerce"`, so the pandas parser's failure (here the oracle
`fun s => none`) comes back as `NaT`, which is not `None`, so the `0.5`
branch is skipped and the weight computes to float `nan`. -/
theorem claim_C8_counterexample :
    BoardroomRender.exp_decay_weight_src
        (BoardroomRender.parse_time (fun _ => none) "not a timestamp") 0 =
      BoardroomRender.PyFloat.nan ∧
    BoardroomRender.PyFloat.nan ≠ BoardroomRender.PyFloat.val 0.5 :=
  ⟨rfl, fun h => BoardroomRender.PyFloat.noConfusion h⟩

/-- **C8 (amended).** In both copies a parsed timestamp gets weight
`exp(-ageHours / 24)` (with `ageHours = (now - ts)/3600` and the 24-hour
half-life constant), and at a common `now` a strictly smaller age gives
a strictly larger weight.  The `0.5` fallback for an
unknown/unparseable timestamp holds as claimed only in
`scripts/scripts/boardroom_render.py`, whose `parse_time` returns `None`
on failure; in `src/scripts/boardroom_render.py` a genuine `None` gets
`0.5`, but an unparseable timestamp arrives as `NaT` (that `parse_time`
coerces parse failures) and its weight computes to float `nan`. -/
theorem claim_C8_amended_decay_weight :
    (∀ t now : ℝ, BoardroomRender.exp_decay_weight (some t) now =
        Real.exp (-((now - t) / 3600) / BoardroomRender.HALF_LIFE_HOURS)) ∧
    (∀ t now : ℝ,
        BoardroomRender.exp_decay_weight_src (BoardroomRender.PyTime.val t) now =
          BoardroomRender.PyFloat.val
            (Real.exp (-((now - t) / 3600) / BoardroomRender.HALF_LIFE_HOURS))) ∧
    (∀ now t1 t2 : ℝ, (now - t1) / 3600 < (now - t2) / 3600 →
        BoardroomRender.exp_decay_weight (some t2) now <
          BoardroomRender.exp_decay_weight (some t1) now) ∧
    (∀ now t1 t2 : ℝ, (now - t1) / 3600 < (now - t2) / 3600 →
        ∃ w1 w2 : ℝ,
          BoardroomRender.exp_decay_weight_src (BoardroomRender.PyTime.val t1) now =
            BoardroomRender.PyFloat.val w1 ∧
          BoardroomRender.exp_decay_weight_src (BoardroomRender.PyTime.val t2) now =
            BoardroomRender.PyFloat.val w2 ∧ w2 < w1) ∧
    (∀ now : ℝ, BoardroomRender.exp_decay_weight none now = 0.5) ∧
    (∀ now : ℝ,
        BoardroomRender.exp_decay_weight_src BoardroomRender.PyTime.pynone now =
          BoardroomRender.PyFloat.val 0.5) ∧
    (∀ (pdParse : String → Option ℝ) (s : String) (now : ℝ), pdParse s = none →
        BoardroomRender.exp_decay_weight_src
            (BoardroomRender.parse_time pdParse s) now =
          BoardroomRender.PyFloat.nan) := by
  refine ⟨fun t now => rfl, fun t now => rfl, ?_, ?_, fun now => rfl,
    fun now => rfl, ?_⟩
  · intro now t1 t2 h
    show Real.exp _ < Real.exp _
    apply Real.exp_lt_exp.mpr
    have h24 : (0 : ℝ) < 24 := by norm_num
    simp only [BoardroomRender.HALF_LIFE_HOURS]
    exact (div_lt_div_iff_of_pos_right h24).mpr (neg_lt_neg h)
  · intro now t1 t2 h
    refine ⟨_, _, rfl, rfl, ?_⟩
    apply Real.exp_lt_exp.mpr
    have h24 : (0 : ℝ) < 24 := by norm_num
    simp only [BoardroomRender.HALF_LIFE_HOURS]
    exact (div_lt_div_iff_of_pos_right h24).mpr (neg_lt_neg h)
  · intro pdParse s now hp
    have hnat : BoardroomRender.parse_time pdParse s = BoardroomRender.PyTime.nat := by
      simp [BoardroomRender.parse_time, hp]
    rw [hnat]
    rfl

/-- Witness for the amended C8 at concrete inputs: in the
`scripts/scripts` copy an observation 2 hours old weighs less than one
1 hour old, and in the `src/scripts` copy a coerced parse failure
produces weight `nan`. -/
theorem claim_C8_amended_decay_weight_witness :
    (BoardroomRender.exp_decay_weight (some (-7200 : ℝ)) 0 <
       BoardroomRender.exp_decay_weight (some (-3600 : ℝ)) 0) ∧
    BoardroomRender.exp_decay_weight_src
        (BoardroomRender.parse_time (fun _ => none) "Sep 32, 2025") 0 =
      BoardroomRender.PyFloat.nan :=
  ⟨claim_C8_amended_decay_weight.2.2.1 0 (-3600) (-7200) (by norm_num),
   claim_C8_amended_decay_weight.2.2.2.2.2.2 (fun _ => none) "Sep 32, 2025" 0 rfl⟩

theorem starsOf_spec (s4 s5 s : ℚ) :
    (BoardroomRender.starsOf s4 s5 s = "5★" ↔ s5 ≤ s) ∧
    (BoardroomRender.starsOf s4 s5 s = "4★" ↔ s4 ≤ s ∧ s < s5) ∧
    (BoardroomRender.starsOf s4 s5 s = "" ↔ s < s5 ∧ s < s4) := by
  by_cases h1 : s ≥ s5
  · rw [BoardroomRender.starsOf, if_pos h1]
    exact ⟨⟨fun _ => h1, fun _ => rfl⟩,
      ⟨fun hq => absurd hq (by decide), fun hc => absurd hc.2 (not_lt.mpr h1)⟩,
      ⟨fun hq => absurd hq (by decide), fun hc => absurd hc.1 (not_lt.mpr h1)⟩⟩
  · by_cases h2 : s ≥ s4
    · rw [BoardroomRender.starsOf, if_neg h1, if_pos h2]
      exact ⟨⟨fun hq => absurd hq (by decide), fun hc => absurd hc h1⟩,
        ⟨fun _ => ⟨h2, not_le.mp h1⟩, fun _ => rfl⟩,
        ⟨fun hq => absurd hq (by decide), fun hc => absurd hc.2 (not_lt.mpr h2)⟩⟩
    · rw [BoardroomRender.starsOf, if_neg h1, if_neg h2]
      exact ⟨⟨fun hq => absurd hq.symm (by decide), fun hc => absurd hc h1⟩,
        ⟨fun hq => absurd hq.symm (by decide), fun hc => absurd hc.1 h2⟩,
        ⟨fun _ => ⟨not_le.mp h1, not_le.mp h2⟩, fun _ => rfl⟩⟩

/-- **C6.** Every row surviving the boardroom gates comes from the input and
satisfies `signals ≥ min_signals` and `score ≥ min(star4, star5)`; a
surviving row is labeled `5★` exactly when `score ≥ star5` and `4★`
exactly when `star4 ≤ score < star5`, and no other label is ever emitted;
with the default gates (`min_signals = 2`, `star4 = 3.5`, `star5 = 6`)
every surviving row has at least 2 signals, so an entity with one signal
and score 7 is absent. -/
theorem claim_C6_gating (minSignals : Int) (star4 star5 : ℚ)
    (sortStep : List BoardroomRender.OutRow → List BoardroomRender.OutRow)
    (hperm : ∀ l, List.Perm (sortStep l) l) (rows : List BoardroomRender.OutRow) :
    (∀ p ∈ BoardroomRender.applyGates minSignals star4 star5 sortStep rows,
        p.1 ∈ rows ∧ minSignals ≤ p.1.signals ∧ min star4 star5 ≤ p.1.score ∧
        (p.2 = "5★" ∨ p.2 = "4★") ∧
        (p.2 = "5★" ↔ star5 ≤ p.1.score) ∧
        (p.2 = "4★" ↔ star4 ≤ p.1.score ∧ p.1.score < star5)) ∧
    (∀ p ∈ BoardroomRender.applyGates 2 (7 / 2 : ℚ) 6 sortStep rows,
        2 ≤ p.1.signals) := by
  have key : ∀ (ms : Int) (s4 s5 : ℚ) p,
      p ∈ BoardroomRender.applyGates ms s4 s5 sortStep rows →
      p.1 ∈ rows ∧ ms ≤ p.1.signals ∧ min s4 s5 ≤ p.1.score ∧
      p.2 = BoardroomRender.starsOf s4 s5 p.1.score ∧ p.2 ≠ "" := by
    intro ms s4 s5 p hp
    simp only [BoardroomRender.applyGates] at hp
    rcases List.mem_filter.mp hp with ⟨hp, hne⟩
    rcases List.mem_map.mp hp with ⟨r, hr, rfl⟩
    have hr2 := (hperm _).mem_iff.mp hr
    rcases List.mem_filter.mp hr2 with ⟨hr3, hsc⟩
    rcases List.mem_filter.mp hr3 with ⟨hr4, hsg⟩
    refine ⟨hr4, of_decide_eq_true hsg, of_decide_eq_true hsc, rfl, ?_⟩
    simpa using hne
  constructor
  · intro p hp
    obtain ⟨hmem, hsg, hsc, hstar, hne⟩ := key minSignals star4 star5 p hp
    obtain ⟨h5, h4, h0⟩ := starsOf_spec star4 star5 p.1.score
    refine ⟨hmem, hsg, hsc, ?_, by rw [hstar]; exact h5, by rw [hstar]; exact h4⟩
    by_cases hs5 : star5 ≤ p.1.score
    · exact Or.inl (by rw [hstar]; exact h5.mpr hs5)
    · by_cases hs4 : star4 ≤ p.1.score
      · exact Or.inr (by rw [hstar]; exact h4.mpr ⟨hs4, not_le.mp hs5⟩)
      · exact absurd (hstar.trans (h0.mpr ⟨not_le.mp hs5, not_le.mp hs4⟩)) hne
  · intro p hp
    exact (key 2 (7 / 2) 6 p hp).2.1

/-- Witness for C6 at concrete inputs: a row with 2 signals and score 7
survives gates `(2, 3, 6)` as a 5★ pick, and the theorem yields its gate
facts. -/
theorem claim_C6_gating_witness :
    ((⟨"KC", 7, 2, 1, 1, 7, 0, "", "t"⟩ : BoardroomRender.OutRow), "5★") ∈
      BoardroomRender.applyGates 2 3 6 id
        [⟨"KC", 7, 2, 1, 1, 7, 0, "", "t"⟩] ∧ (6 : ℚ) ≤ 7 := by
  have h := (claim_C6_gating 2 3 6 id (fun l => List.Perm.refl l)
      [⟨"KC", 7, 2, 1, 1, 7, 0, "", "t"⟩]).1
      ((⟨"KC", 7, 2, 1, 1, 7, 0, "", "t"⟩ : BoardroomRender.OutRow), "5★")
      (by decide)
  exact ⟨by decide, h.2.2.2.2.1.mp rfl⟩

theorem coerce_pct_some (parse : String → Option ℚ) (s : String) :
    SplitsGuardClean.coerce_pct parse (some s) =
      if pyStrip s = "" then none
      else
        match parse (pyStrip (pyReplace s "%" "")) with
        | some v => if 0 ≤ v ∧ v ≤ 100 then some v else none
        | none => none := rfl

theorem coerce_pct_range (parse : String → Option ℚ) (x : Option String) (v : ℚ)
    (hv : SplitsGuardClean.coerce_pct parse x = some v) : 0 ≤ v ∧ v ≤ 100 := by
  cases x with
  | none => cases hv
  | some s =>
    rw [coerce_pct_some] at hv
    by_cases hs : pyStrip s = ""
    · rw [if_pos hs] at hv; cases hv
    · rw [if_neg hs] at hv
      cases hp : parse (pyStrip (pyReplace s "%" "")) with
      | none => rw [hp] at hv; cases hv
      | some w =>
        rw [hp] at hv
        change (if 0 ≤ w ∧ w ≤ 100 then some w else none) = some v at hv
        by_cases hr : 0 ≤ w ∧ w ≤ 100
        · rw [if_pos hr] at hv
          cases hv
          exact hr
        · rw [if_neg hr] at hv; cases hv

theorem guardClean_pct (aliasMap : List (String × String))
    (parseF : String → Option ℚ) (parseTs : String → Option Int)
    (rows : List SplitsGuardClean.GRow) (r : SplitsGuardClean.CleanRow)
    (hr : r ∈ SplitsGuardClean.guardClean aliasMap parseF parseTs rows) :
    ∃ g ∈ rows, r.tickets_pct = SplitsGuardClean.coerce_pct parseF g.tickets_pct ∧
      r.handle_pct = SplitsGuardClean.coerce_pct parseF g.handle_pct := by
  simp only [SplitsGuardClean.guardClean] at hr
  rcases List.mem_map.mp hr with ⟨m, hm, rfl⟩
  have hm4 := (sortOn_perm _ _).mem_iff.mp hm
  rcases List.mem_filter.mp hm4 with ⟨hm3, -⟩
  rcases List.mem_filter.mp hm3 with ⟨hm2, -⟩
  rcases List.mem_filter.mp hm2 with ⟨hm1, -⟩
  rcases List.mem_filter.mp hm1 with ⟨hm0, -⟩
  rcases List.mem_map.mp hm0 with ⟨g, hg, rfl⟩
  rcases List.mem_filter.mp hg with ⟨hgrows, -⟩
  exact ⟨g, hgrows, rfl, rfl⟩

/-- **C7.** `coerce_pct` yields a number only when it lies in `[0, 100]`
and `None` otherwise (unparseable, negative, or above 100 — in particular
a raw 140 never survives), so in every row surviving the clean step the
`tickets_pct`/`handle_pct` fields are either null or within `[0, 100]`. -/
theorem claim_C7_pct_in_range :
    (∀ (parse : String → Option ℚ) (x : Option String) (v : ℚ),
        SplitsGuardClean.coerce_pct parse x = some v → 0 ≤ v ∧ v ≤ 100) ∧
    (∀ (parse : String → Option ℚ) (s : String),
        parse (pyStrip (pyReplace s "%" "")) = none →
        SplitsGuardClean.coerce_pct parse (some s) = none) ∧
    (∀ (parse : String → Option ℚ) (s : String) (v : ℚ),
        parse (pyStrip (pyReplace s "%" "")) = some v → (v < 0 ∨ 100 < v) →
        SplitsGuardClean.coerce_pct parse (some s) = none) ∧
    (∀ (parse : String → Option ℚ) (s : String),
        parse (pyStrip (pyReplace s "%" "")) = some 140 →
        SplitsGuardClean.coerce_pct parse (some s) = none) ∧
    (∀ (aliasMap : List (String × String)) (parseF : String → Option ℚ)
        (parseTs : String → Option Int) (rows : List SplitsGuardClean.GRow),
        ∀ r ∈ SplitsGuardClean.guardClean aliasMap parseF parseTs rows,
        (∀ v, r.tickets_pct = some v → 0 ≤ v ∧ v ≤ 100) ∧
        (∀ v, r.handle_pct = some v → 0 ≤ v ∧ v ≤ 100)) := by
  have hnone : ∀ (parse : String → Option ℚ) (s : String),
      parse (pyStrip (pyReplace s "%" "")) = none →
      SplitsGuardClean.coerce_pct parse (some s) = none := by
    intro parse s hp
    rw [coerce_pct_some]
    by_cases hs : pyStrip s = ""
    · rw [if_pos hs]
    · rw [if_neg hs, hp]
  have hout : ∀ (parse : String → Option ℚ) (s : String) (v : ℚ),
      parse (pyStrip (pyReplace s "%" "")) = some v → (v < 0 ∨ 100 < v) →
      SplitsGuardClean.coerce_pct parse (some s) = none := by
    intro parse s v hp hv
    rw [coerce_pct_some]
    by_cases hs : pyStrip s = ""
    · rw [if_pos hs]
    · rw [if_neg hs, hp]
      change (if 0 ≤ v ∧ v ≤ 100 then some v else none) = none
      rw [if_neg]
      rcases hv with hv | hv
      · exact fun hc => absurd hc.1 (not_le.mpr hv)
      · exact fun hc => absurd hc.2 (not_le.mpr hv)
  refine ⟨coerce_pct_range, hnone, hout, ?_, ?_⟩
  · intro parse s hp
    exact hout parse s 140 hp (Or.inr (by norm_num))
  · intro aliasMap parseF parseTs rows r hr
    obtain ⟨g, -, ht, hh⟩ := guardClean_pct aliasMap parseF parseTs rows r hr
    constructor
    · intro v hv
      exact coerce_pct_range parseF g.tickets_pct v (by rw [← ht, hv])
    · intro v hv
      exact coerce_pct_range parseF g.handle_pct v (by rw [← hh, hv])

/-- Witness for C7 at concrete inputs: a parser that reads `"55"` lets
`"55%"` through (and the theorem bounds it), while a raw `"140"` is
nulled. -/
theorem claim_C7_pct_in_range_witness :
    (0 ≤ (55 : ℚ) ∧ (55 : ℚ) ≤ 100) ∧
    SplitsGuardClean.coerce_pct
      (fun s => if s = "140" then some (140 : ℚ) else none) (some "140") = none := by
  constructor
  · exact claim_C7_pct_in_range.1
      (fun s => if s = "55" then some (55 : ℚ) else none) (some "55%") 55 (by decide)
  · exact claim_C7_pct_in_range.2.2.2.1
      (fun s => if s = "140" then some (140 : ℚ) else none) "140" (by decide)

/-- **C10.** The audit step keeps exactly one clean record per input row
(none dropped): the clean list is the row-wise `auditStep` image, which can
rewrite only the league field — and only by filling an empty/`unknown`
league from `guess_league` — while every other field is preserved; rows
judged junk or weak go additionally to the flagged list with a reason tag,
and every flagged record still appears in the clean output. -/
theorem claim_C10_audit_keeps_rows (rows : List AuditSplits.ARec) :
    (AuditSplits.audit_main rows).1 = rows.map (fun r => (AuditSplits.auditStep r).1) ∧
    (AuditSplits.audit_main rows).2 =
      (rows.map AuditSplits.auditStep).filterMap
        (fun p => p.2.map fun why => (p.1, why)) ∧
    (AuditSplits.audit_main rows).1.length = rows.length ∧
    (∀ r : AuditSplits.ARec,
        (AuditSplits.auditStep r).1.timestamp = r.timestamp ∧
        (AuditSplits.auditStep r).1.away_team = r.away_team ∧
        (AuditSplits.auditStep r).1.home_team = r.home_team ∧
        (AuditSplits.auditStep r).1.market = r.market ∧
        (AuditSplits.auditStep r).1.tickets_pct = r.tickets_pct ∧
        (AuditSplits.auditStep r).1.handle_pct = r.handle_pct ∧
        (AuditSplits.auditStep r).1.line = r.line ∧
        (AuditSplits.auditStep r).1.source = r.source ∧
        ((AuditSplits.auditStep r).1.league = r.league ∨
          ((r.league = "" ∨ SplitsFeed.pyLower r.league = "unknown") ∧
            AuditSplits.guess_league r.away_team r.home_team =
              some (AuditSplits.auditStep r).1.league))) ∧
    (∀ q ∈ (AuditSplits.audit_main rows).2, q.1 ∈ (AuditSplits.audit_main rows).1) := by
  have hclean : ∀ rs : List AuditSplits.ARec,
      (AuditSplits.audit_main rs).1 = rs.map (fun r => (AuditSplits.auditStep r).1) := by
    intro rs
    induction rs with
    | nil => rfl
    | cons r rs ih =>
      simp only [AuditSplits.audit_main, List.map_cons]
      rw [ih]
  have hflag : ∀ rs : List AuditSplits.ARec,
      (AuditSplits.audit_main rs).2 =
        (rs.map AuditSplits.auditStep).filterMap
          (fun p => p.2.map fun why => (p.1, why)) := by
    intro rs
    induction rs with
    | nil => rfl
    | cons r rs ih =>
      simp only [AuditSplits.audit_main, List.map_cons, List.filterMap_cons]
      cases hstep : (AuditSplits.auditStep r).2 with
      | none => simpa [hstep] using ih
      | some why => simpa [hstep] using ih
  have hfields : ∀ r : AuditSplits.ARec,
      (AuditSplits.auditStep r).1.timestamp = r.timestamp ∧
      (AuditSplits.auditStep r).1.away_team = r.away_team ∧
      (AuditSplits.auditStep r).1.home_team = r.home_team ∧
      (AuditSplits.auditStep r).1.market = r.market ∧
      (AuditSplits.auditStep r).1.tickets_pct = r.tickets_pct ∧
      (AuditSplits.auditStep r).1.handle_pct = r.handle_pct ∧
      (AuditSplits.auditStep r).1.line = r.line ∧
      (AuditSplits.auditStep r).1.source = r.source ∧
      ((AuditSplits.auditStep r).1.league = r.league ∨
        ((r.league = "" ∨ SplitsFeed.pyLower r.league = "unknown") ∧
          AuditSplits.guess_league r.away_team r.home_team =
            some (AuditSplits.auditStep r).1.league)) := by
    intro r
    have h1 : (AuditSplits.auditStep r).1 =
        (if r.league = "" ∨ SplitsFeed.pyLower r.league = "unknown" then
          match AuditSplits.guess_league r.away_team r.home_team with
          | some g => { r with league := g }
          | none => r
        else r) := rfl
    rw [h1]
    by_cases hc : r.league = "" ∨ SplitsFeed.pyLower r.league = "unknown"
    · rw [if_pos hc]
      cases hg : AuditSplits.guess_league r.away_team r.home_team with
      | none => exact ⟨rfl, rfl, rfl, rfl, rfl, rfl, rfl, rfl, Or.inl rfl⟩
      | some g => exact ⟨rfl, rfl, rfl, rfl, rfl, rfl, rfl, rfl, Or.inr ⟨hc, rfl⟩⟩
    · rw [if_neg hc]
      exact ⟨rfl, rfl, rfl, rfl, rfl, rfl, rfl, rfl, Or.inl rfl⟩
  refine ⟨hclean rows, hflag rows, by rw [hclean rows, List.length_map], hfields, ?_⟩
  intro q hq
  rw [hflag rows] at hq
  rcases List.mem_filterMap.mp hq with ⟨p, hp, hpq⟩
  rcases List.mem_map.mp hp with ⟨r, hr, rfl⟩
  cases hstep : (AuditSplits.auditStep r).2 with
  | none => rw [hstep] at hpq; cases hpq
  | some why =>
    rw [hstep] at hpq
    cases hpq
    rw [hclean rows]
    exact List.mem_map.mpr ⟨r, hr, rfl⟩

/-- Witness for C10 at a concrete input: an all-empty record is flagged
`no_teams` yet its clean copy is still present in the clean output. -/
theorem claim_C10_audit_keeps_rows_witness :
    ((⟨"", "", "", "", "", "", "", "", ""⟩ : AuditSplits.ARec), "no_teams").1 ∈
      (AuditSplits.audit_main [⟨"", "", "", "", "", "", "", "", ""⟩]).1 :=
  (claim_C10_audit_keeps_rows [⟨"", "", "", "", "", "", "", "", ""⟩]).2.2.2.2
    (⟨"", "", "", "", "", "", "", "", ""⟩, "no_teams") (by decide)

/-- **C5 (amended).** What the clean/promote step actually does to the
persisted log: `splits.csv` is overwritten with the filtered rows exactly
when `--promote` is passed, and left byte-for-byte untouched exactly when
it is not — the surviving row count plays no part (the source has no
25-row, or any, threshold). -/
theorem claim_C5_amended_promote_flag {σ : Type} (aliasMap : List (String × String))
    (parseF : String → Option ℚ) (parseTs : String → Option Int)
    (rows : List SplitsGuardClean.GRow) (promote : Bool) (prev : σ)
    (serialize : List SplitsGuardClean.CleanRow → σ) :
    (SplitsGuardClean.guardMain aliasMap parseF parseTs rows promote prev serialize).2 =
      (if promote then
        serialize (SplitsGuardClean.guardClean aliasMap parseF parseTs rows)
      else prev) ∧
    (SplitsGuardClean.guardMain aliasMap parseF parseTs rows false prev serialize).2 =
      prev := by
  exact ⟨rfl, rfl⟩

/-- **C5 (counterexample).** A promoted run with a single surviving row —
far below the claimed 25-row threshold — still replaces the persisted log:
the log after the run differs from the log before it, refuting "if fewer
than 25 rows survive, the persisted log is unchanged". -/
theorem claim_C5_counterexample :
    (SplitsGuardClean.guardClean [("chiefs", "KC"), ("bills", "BUF")]
        (fun _ => none) (fun _ => some 100)
        [⟨"t1", "Chiefs", "Bills", "Spread", none, none, "", "X"⟩]).length = 1 ∧
    1 < 25 ∧
    (SplitsGuardClean.guardMain [("chiefs", "KC"), ("bills", "BUF")]
        (fun _ => none) (fun _ => some 100)
        [⟨"t1", "Chiefs", "Bills", "Spread", none, none, "", "X"⟩]
        true ([] : List SplitsGuardClean.CleanRow) id).2 ≠
      ([] : List SplitsGuardClean.CleanRow) := by
  refine ⟨by decide, by decide, by decide⟩

namespace SplitsFeed

variable {β : Type} {κ' : Type}

theorem lookup2_cons [BEq κ'] (k1 : κ') (v1 : β) (l : List (κ' × β)) (k : κ') :
    ((k1, v1) :: l).lookup k = if k == k1 then some v1 else l.lookup k := by
  by_cases h : k == k1 <;> simp [List.lookup, h]

theorem lookup2_append [BEq κ'] (l₁ l₂ : List (κ' × β)) (k : κ') :
    (l₁ ++ l₂).lookup k =
      match l₁.lookup k with
      | some v => some v
      | none => l₂.lookup k := by
  induction l₁ with
  | nil => simp [List.lookup]
  | cons p l ih =>
    obtain ⟨k1, v1⟩ := p
    by_cases h : k == k1
    · simp [lookup2_cons, h]
    · simp [lookup2_cons, h, ih]

theorem lookup2_mem [BEq κ'] [LawfulBEq κ'] {l : List (κ' × β)} {k : κ'} {v : β}
    (h : l.lookup k = some v) : (k, v) ∈ l := by
  induction l with
  | nil => cases h
  | cons p l ih =>
    obtain ⟨k1, v1⟩ := p
    rw [lookup2_cons] at h
    by_cases hk : k == k1
    · rw [if_pos hk] at h
      cases h
      have : k = k1 := eq_of_beq hk
      subst this
      exact List.mem_cons_self _ _
    · rw [if_neg hk] at h
      exact List.mem_cons_of_mem _ (ih h)

theorem lookup2_isSome_iff [BEq κ'] [LawfulBEq κ'] (l : List (κ' × β)) (k : κ') :
    (l.lookup k).isSome ↔ k ∈ l.map (·.1) := by
  induction l with
  | nil => simp [List.lookup]
  | cons p l ih =>
    obtain ⟨k1, v1⟩ := p
    rw [lookup2_cons]
    by_cases hk : k == k1
    · have : k = k1 := eq_of_beq hk
      subst this
      simp [hk]
    · have hne : k ≠ k1 := fun he => hk (by simp [he])
      simp only [if_neg hk, List.map_cons, List.mem_cons, ih]
      exact ⟨fun h => Or.inr h, fun h => h.resolve_left hne⟩

theorem lookup2_of_mem_nodupKeys [BEq κ'] [LawfulBEq κ'] {l : List (κ' × β)}
    (hnd : (l.map (·.1)).Nodup) {k : κ'} {v : β} (hm : (k, v) ∈ l) :
    l.lookup k = some v := by
  induction l with
  | nil => cases hm
  | cons p l ih =>
    obtain ⟨k1, v1⟩ := p
    rw [List.map_cons, List.nodup_cons] at hnd
    rw [lookup2_cons]
    rcases List.mem_cons.mp hm with heq | hm2
    · cases heq
      simp
    · have hk : k ≠ k1 := by
        intro he
        subst he
        exact hnd.1 (List.mem_map.mpr ⟨(k, v), hm2, rfl⟩)
      rw [if_neg (by simpa using hk)]
      exact ih hnd.2 hm2

end SplitsFeed

namespace AnalyzeTwitterText

open SplitsFeed

theorem add_alias_eq (a t : String) (m : List (String × String)) :
    add_alias a t m =
      if normA a = "" then m
      else if (m.lookup (normA a)).isSome then m else m ++ [(normA a, t)] := rfl

theorem firstWins_nil (m : List (String × String)) : firstWins m [] = m := rfl

theorem firstWins_cons (m : List (String × String)) (p : String × String)
    (l : List (String × String)) :
    firstWins m (p :: l) =
      firstWins (if (m.lookup p.1).isSome then m else m ++ [p]) l := rfl

theorem firstWins_append (m : List (String × String)) (l₁ l₂ : List (String × String)) :
    firstWins m (l₁ ++ l₂) = firstWins (firstWins m l₁) l₂ :=
  List.foldl_append _ _ _ _

theorem foldl_add_alias (t : String) (as : List String) :
    ∀ m, as.foldl (fun m a => add_alias a t m) m =
      firstWins m ((as.map fun a => (normA a, t)).filter fun p => p.1 != "") := by
  induction as with
  | nil => intro m; rfl
  | cons a as ih =>
    intro m
    simp only [List.foldl_cons, List.map_cons]
    by_cases ha : normA a = ""
    · rw [add_alias_eq, if_pos ha, ih]
      congr 1
      simp [List.filter_cons, ha]
    · rw [add_alias_eq, if_neg ha, ih]
      have hfil : List.filter (fun p => p.1 != "")
            ((normA a, t) :: List.map (fun a => (normA a, t)) as) =
          (normA a, t) :: List.filter (fun p => p.1 != "")
            (List.map (fun a => (normA a, t)) as) := by
        simp [List.filter_cons, ha]
      rw [hfil, firstWins_cons]

theorem loadEntry_fst (st : List (String × String) × List String)
    (td : String × List String) :
    (loadEntry st td).1 = firstWins st.1 (regsOfEntry td) := by
  show ((td.2.foldl (fun m a => add_alias a td.1 m)
      ((seed_aliases td.1).foldl (fun m a => add_alias a td.1 m) st.1))) = _
  rw [foldl_add_alias, foldl_add_alias, regsOfEntry, List.map_append,
    List.filter_append, firstWins_append]

theorem loadEntry_snd (st : List (String × String) × List String)
    (td : String × List String) :
    (loadEntry st td).2 = if td.1 ∈ st.2 then st.2 else st.2 ++ [td.1] := rfl

theorem fileFold_fst (file : List (String × List String)) :
    ∀ st : List (String × String) × List String,
      (file.foldl loadEntry st).1 = firstWins st.1 (file.flatMap regsOfEntry) := by
  induction file with
  | nil => intro st; rfl
  | cons td file ih =>
    intro st
    simp only [List.foldl_cons, List.flatMap_cons]
    rw [ih, firstWins_append, loadEntry_fst]

theorem fileFold_snd (file : List (String × List String)) :
    ∀ st : List (String × String) × List String,
      (file.foldl loadEntry st).2 =
        file.foldl (fun acc td => if td.1 ∈ acc then acc else acc ++ [td.1]) st.2 := by
  induction file with
  | nil => intro st; rfl
  | cons td file ih =>
    intro st
    simp only [List.foldl_cons]
    rw [ih]
    rfl

theorem filesFold_fst (files : List (List (String × List String))) :
    ∀ st : List (String × String) × List String,
      (files.foldl (fun st file => file.foldl loadEntry st) st).1 =
        firstWins st.1 (files.flatMap fun file => file.flatMap regsOfEntry) := by
  induction files with
  | nil => intro st; rfl
  | cons file files ih =>
    intro st
    simp only [List.foldl_cons, List.flatMap_cons]
    rw [ih, firstWins_append, fileFold_fst]

theorem filesFold_snd (files : List (List (String × List String))) :
    ∀ st : List (String × String) × List String,
      (files.foldl (fun st file => file.foldl loadEntry st) st).2 =
        files.foldl (fun acc file =>
          file.foldl (fun acc td => if td.1 ∈ acc then acc else acc ++ [td.1]) acc) st.2 := by
  induction files with
  | nil => intro st; rfl
  | cons file files ih =>
    intro st
    simp only [List.foldl_cons]
    rw [ih, fileFold_snd]

theorem extras_fold_eq (ts : List String) :
    ∀ (ex : List (String × String)), (∀ p ∈ ex, normA p.1 ≠ "") →
      ∀ m, ex.foldl (fun m p => if p.2 ∈ ts then add_alias p.1 p.2 m else m) m =
        firstWins m ((ex.filter fun p => decide (p.2 ∈ ts)).map fun p => (normA p.1, p.2)) := by
  intro ex
  induction ex with
  | nil => intro _ m; rfl
  | cons p ex ih =>
    intro hne m
    have hp := hne p (List.mem_cons_self _ _)
    have hrest := fun q hq => hne q (List.mem_cons_of_mem _ hq)
    simp only [List.foldl_cons]
    by_cases hts : p.2 ∈ ts
    · rw [if_pos hts, add_alias_eq, if_neg hp, ih hrest]
      have hfil : List.map (fun p => (normA p.1, p.2))
            (List.filter (fun p => decide (p.2 ∈ ts)) (p :: ex)) =
          (normA p.1, p.2) :: List.map (fun p => (normA p.1, p.2))
            (List.filter (fun p => decide (p.2 ∈ ts)) ex) := by
        simp [List.filter_cons, hts]
      rw [hfil, firstWins_cons]
    · rw [if_neg hts, ih hrest]
      congr 1
      simp [List.filter_cons, hts]

theorem load_dicts_fst_eq (files : List (List (String × List String))) :
    (load_dicts files).1 = firstWins [] (regStream files) := by
  have h1 : (load_dicts files).1 =
      extras.foldl (fun m p =>
        if p.2 ∈ (files.foldl (fun st file => file.foldl loadEntry st)
            (([] : List (String × String)), ([] : List String))).2
        then add_alias p.1 p.2 m else m)
        (files.foldl (fun st file => file.foldl loadEntry st)
          (([] : List (String × String)), ([] : List String))).1 := rfl
  rw [h1, extras_fold_eq _ extras (by decide), filesFold_fst, filesFold_snd,
    regStream, firstWins_append]
  rfl

theorem firstWins_lookup (k : String) :
    ∀ (l m : List (String × String)),
      (firstWins m l).lookup k =
        match m.lookup k with
        | some v => some v
        | none => (l.find? fun p => p.1 == k).map (·.2) := by
  intro l
  induction l with
  | nil =>
    intro m
    rw [firstWins_nil, List.find?_nil]
    cases m.lookup k <;> rfl
  | cons p l ih =>
    intro m
    rw [firstWins_cons, ih]
    by_cases hpk : (p.1 == k) = true
    · have hkeq : p.1 = k := eq_of_beq hpk
      by_cases hm : (m.lookup p.1).isSome
      · rw [if_pos hm]
        obtain ⟨w, hw⟩ := Option.isSome_iff_exists.mp hm
        rw [hkeq] at hw
        rw [hw]
      · rw [if_neg hm]
        have hmk : m.lookup p.1 = none := Option.not_isSome_iff_eq_none.mp hm
        rw [hkeq] at hmk
        have hsingle : ([p].lookup k) = some p.2 := by
          rw [show p = (p.1, p.2) from rfl, lookup2_cons,
            if_pos (by rw [beq_iff_eq]; exact hkeq.symm)]
        have hfind : ((p :: l).find? fun q => q.1 == k) = some p := by
          simp [List.find?_cons, hpk]
        rw [lookup2_append, hmk, hsingle, hfind]
        rfl
    · have hfind : ((p :: l).find? fun q => q.1 == k) =
          (l.find? fun q => q.1 == k) := by
        simp [List.find?_cons, hpk]
      rw [hfind]
      by_cases hm : (m.lookup p.1).isSome
      · rw [if_pos hm]
      · rw [if_neg hm]
        have hsingle : ([p].lookup k) = none := by
          rw [show p = (p.1, p.2) from rfl, lookup2_cons,
            if_neg (fun hc => hpk (by rw [beq_iff_eq] at hc ⊢; exact hc.symm))]
          rfl
        rw [lookup2_append, hsingle]
        cases m.lookup k <;> rfl

theorem firstWins_nodupKeys :
    ∀ (l m : List (String × String)), ((m.map (·.1)).Nodup) →
      (((firstWins m l).map (·.1)).Nodup) := by
  intro l
  induction l with
  | nil => intro m hm; exact hm
  | cons p l ih =>
    intro m hm
    rw [firstWins_cons]
    by_cases hmp : (m.lookup p.1).isSome
    · rw [if_pos hmp]; exact ih m hm
    · rw [if_neg hmp]
      refine ih _ ?_
      rw [List.map_append, List.nodup_append]
      refine ⟨hm, by simp, ?_⟩
      intro a ha hb
      simp at hb
      subst hb
      exact hmp ((lookup2_isSome_iff m p.1).mpr ha)

end AnalyzeTwitterText

/-- **C3 (amended).** For `load_dicts` (`analyze_twitter_text.py`) the claim
holds: the alias index maps each alias to exactly one canonical team — the
first registration in program order wins and later ones (including the
post-load `extras` shorthands) have no effect — and the compiled alias
list is ordered longest-first, so an alias strictly contained in a longer
one comes after it.  (`ingest_twitter_csv.py`'s `load_dictionaries`
instead keeps the set of all teams per alias and leaves patterns
unsorted; see the counterexample.) -/
theorem claim_C3_amended_alias_index (files : List (List (String × List String))) :
    ((AnalyzeTwitterText.load_dicts files).1.map (·.1)).Nodup ∧
    (∀ a, (AnalyzeTwitterText.load_dicts files).1.lookup a =
      ((AnalyzeTwitterText.regStream files).find? fun p => p.1 == a).map (·.2)) ∧
    (AnalyzeTwitterText.load_dicts files).2.Pairwise (fun x y => y.length ≤ x.length) ∧
    List.Perm (AnalyzeTwitterText.load_dicts files).2
      ((AnalyzeTwitterText.load_dicts files).1.map (·.1)) ∧
    (AnalyzeTwitterText.load_dicts files).2.Pairwise
      (fun x y => x.data <:+: y.data → x = y) := by
  refine ⟨?_, ?_, ?_, ?_, ?_⟩
  · rw [AnalyzeTwitterText.load_dicts_fst_eq]
    exact AnalyzeTwitterText.firstWins_nodupKeys _ [] (by simp)
  · intro a
    rw [AnalyzeTwitterText.load_dicts_fst_eq, AnalyzeTwitterText.firstWins_lookup]
    rfl
  · exact SplitsFeed.sortOnDesc_pairwise String.length _
  · exact SplitsFeed.sortOnDesc_perm String.length _
  · refine List.Pairwise.imp ?_ (SplitsFeed.sortOnDesc_pairwise String.length _)
    intro x y hlen hinf
    have h1 : x.data.length ≤ y.data.length := hinf.length_le
    have h2 : x.data.length = y.data.length := le_antisymm h1 hlen
    have h3 := hinf.sublist.eq_of_length h2
    cases x; cases y; exact congrArg String.mk h3

/-- **C3 (counterexample).** On a dictionary registering the alias
`Giants` for two teams, `ingest_twitter_csv.load_dictionaries` maps the
alias `GIANTS` to *both* canonical teams (the later registration is not
discarded), and its compiled pattern list keeps insertion order: `GIANTS`
comes first even though it is strictly contained in the longer alias
`NEW YORK GIANTS` that follows — refuting first-write-wins uniqueness and
longest-alias-first ordering for this loader. -/
theorem claim_C3_counterexample :
    ((IngestTwitterCsv.load_dictionaries
        [("NFL", [("New York Giants", ["Giants"]), ("SF Giants", ["Giants"])])]).2.map
      IngestTwitterCsv.TPattern.aliasName) =
        ["GIANTS", "NEW YORK GIANTS", "SF GIANTS"] ∧
    ((IngestTwitterCsv.load_dictionaries
        [("NFL", [("New York Giants", ["Giants"]), ("SF Giants", ["Giants"])])]).2.map
      IngestTwitterCsv.TPattern.teams).head? =
        some ["New York Giants", "SF Giants"] ∧
    "GIANTS".data <:+: "NEW YORK GIANTS".data ∧
    "GIANTS".length < "NEW YORK GIANTS".length := by
  refine ⟨by decide, by decide, ⟨"NEW YORK ".data, [], by decide⟩, by decide⟩

namespace SplitsFeed

theorem foldl_min_eq : ∀ (l : List Nat) (a : Nat),
    l.foldl min a = match minNat? l with | none => a | some m => min a m := by
  intro l
  induction l with
  | nil => intro a; rfl
  | cons y ys ih =>
    intro a
    show (ys.foldl min (min a y)) = _
    rw [ih (min a y)]
    show _ = match some (ys.foldl min y) with | none => a | some m => min a m
    rw [ih y]
    cases minNat? ys with
    | none => rfl
    | some m => simp [Nat.min_assoc]

theorem minNat?_cons (x : Nat) (l : List Nat) :
    minNat? (x :: l) = some (match minNat? l with | none => x | some m => min x m) := by
  show some (l.foldl min x) = _
  rw [foldl_min_eq]

theorem minNat?_spec : ∀ (l : List Nat) (m : Nat), minNat? l = some m →
    m ∈ l ∧ ∀ x ∈ l, m ≤ x := by
  intro l
  induction l with
  | nil => intro m h; cases h
  | cons y ys ih =>
    intro m h
    rw [minNat?_cons] at h
    cases hys : minNat? ys with
    | none =>
      rw [hys] at h
      change some y = some m at h
      cases h
      exact ⟨List.mem_cons_self _ _, by
        intro x hx
        rcases List.mem_cons.mp hx with rfl | hx
        · exact le_refl _
        · obtain ⟨a, as, rfl⟩ : ∃ a as, ys = a :: as := by
            cases ys with
            | nil => cases hx
            | cons a as => exact ⟨a, as, rfl⟩
          rw [minNat?_cons] at hys
          cases hys⟩
    | some m' =>
      rw [hys] at h
      change some (min y m') = some m at h
      cases h
      obtain ⟨hmem, hle⟩ := ih m' hys
      constructor
      · rcases Nat.le_total y m' with hy | hy
        · rw [Nat.min_eq_left hy]; exact List.mem_cons_self _ _
        · rw [Nat.min_eq_right hy]; exact List.mem_cons_of_mem _ hmem
      · intro x hx
        rcases List.mem_cons.mp hx with rfl | hx
        · exact Nat.min_le_left _ _
        · exact le_trans (Nat.min_le_right _ _) (hle x hx)

theorem minNat?_isSome {l : List Nat} (h : l ≠ []) : (minNat? l).isSome := by
  cases l with
  | nil => exact absurd rfl h
  | cons x xs => rw [minNat?_cons]; rfl

end SplitsFeed

namespace IngestTwitterCsv

open SplitsFeed

theorem earliestIns_lookup (t' : String) (lg' : Option String) (p' : Nat) :
    ∀ (acc : List (String × Option String × Nat)) (t : String),
      (earliestIns t' lg' p' acc).lookup t =
        if t = t' then
          match acc.lookup t with
          | none => some (lg', p')
          | some v => if p' < v.2 then some (lg', p') else some v
        else acc.lookup t := by
  intro acc
  induction acc with
  | nil =>
    intro t
    by_cases ht : t = t'
    · subst ht
      show ([(t, (lg', p'))].lookup t) = _
      rw [lookup2_cons, if_pos (by simp), if_pos rfl]
      rfl
    · show ([(t', (lg', p'))].lookup t) = _
      rw [lookup2_cons, if_neg (by simpa using ht), if_neg ht]
  | cons e acc ih =>
    intro t
    obtain ⟨t₀, v₀⟩ := e
    show ((if t₀ = t' then
        if p' < v₀.2 then (t', (lg', p')) :: acc else (t₀, v₀) :: acc
      else (t₀, v₀) :: earliestIns t' lg' p' acc).lookup t) = _
    by_cases ht0 : t₀ = t'
    · subst ht0
      by_cases ht : t = t₀
      · subst ht
        by_cases hp : p' < v₀.2 <;> simp [lookup2_cons, hp]
      · have hb : ¬(t == t₀) = true := by simpa using ht
        by_cases hp : p' < v₀.2 <;> simp [lookup2_cons, hp, ht, hb]
    · by_cases ht : t = t₀
      · subst ht
        simp [lookup2_cons, ih, ht0, fun he => ht0 he]
      · have hb : ¬(t == t₀) = true := by simpa using ht
        by_cases ht' : t = t'
        · subst ht'
          simp [lookup2_cons, ih, ht, hb, ht0]
        · simp [lookup2_cons, ih, ht', hb, ht0]

theorem earliestIns_keys (t' : String) (lg' : Option String) (p' : Nat) :
    ∀ (acc : List (String × Option String × Nat)),
      (earliestIns t' lg' p' acc).map (·.1) =
        if t' ∈ acc.map (·.1) then acc.map (·.1) else acc.map (·.1) ++ [t'] := by
  intro acc
  induction acc with
  | nil => simp [earliestIns]
  | cons e acc ih =>
    obtain ⟨t₀, v₀⟩ := e
    show ((if t₀ = t' then
        if p' < v₀.2 then (t', (lg', p')) :: acc else (t₀, v₀) :: acc
      else (t₀, v₀) :: earliestIns t' lg' p' acc).map (·.1)) = _
    by_cases ht0 : t₀ = t'
    · subst ht0
      by_cases hp : p' < v₀.2 <;> simp [hp]
    · have hne : t' ≠ t₀ := fun he => ht0 he.symm
      by_cases hmem : t' ∈ acc.map (·.1) <;> simp [ht0, hne, hmem, ih]

theorem earliestIns_entry (t' : String) (lg' : Option String) (p' : Nat) :
    ∀ (acc : List (String × Option String × Nat)) (e : String × Option String × Nat),
      e ∈ earliestIns t' lg' p' acc → e ∈ acc ∨ (e.1 = t' ∧ e.2.1 = lg') := by
  intro acc
  induction acc with
  | nil =>
    intro e he
    simp only [earliestIns, List.mem_singleton] at he
    subst he
    exact Or.inr ⟨rfl, rfl⟩
  | cons q acc ih =>
    intro e he
    obtain ⟨t₀, v₀⟩ := q
    have hshape : e ∈ (if t₀ = t' then
        if p' < v₀.2 then (t', (lg', p')) :: acc else (t₀, v₀) :: acc
      else (t₀, v₀) :: earliestIns t' lg' p' acc) := he
    by_cases ht0 : t₀ = t'
    · subst ht0
      by_cases hp : p' < v₀.2
      · rw [if_pos rfl, if_pos hp] at hshape
        rcases List.mem_cons.mp hshape with rfl | hmem
        · exact Or.inr ⟨rfl, rfl⟩
        · exact Or.inl (List.mem_cons_of_mem _ hmem)
      · rw [if_pos rfl, if_neg hp] at hshape
        exact Or.inl hshape
    · rw [if_neg ht0] at hshape
      rcases List.mem_cons.mp hshape with rfl | hmem
      · exact Or.inl (List.mem_cons_self _ _)
      · rcases ih e hmem with hmem2 | hnew
        · exact Or.inl (List.mem_cons_of_mem _ hmem2)
        · exact Or.inr hnew

theorem earliest_fold_entry (f : String → Option String) :
    ∀ (hits : List (String × Option String × Nat))
      (acc : List (String × Option String × Nat)),
      (∀ h ∈ hits, h.2.1 = f h.1) → (∀ e ∈ acc, e.2.1 = f e.1) →
      ∀ e ∈ hits.foldl (fun acc h => earliestIns h.1 h.2.1 h.2.2 acc) acc,
        e.2.1 = f e.1 := by
  intro hits
  induction hits with
  | nil => intro acc _ hacc e he; exact hacc e he
  | cons h hs ih =>
    intro acc hinv hacc e he
    refine ih _ (fun x hx => hinv x (List.mem_cons_of_mem _ hx)) ?_ e he
    intro e' he'
    rcases earliestIns_entry h.1 h.2.1 h.2.2 acc e' he' with hmem | hnew
    · exact hacc e' hmem
    · rw [hnew.2, hnew.1, hinv h (List.mem_cons_self _ _)]

theorem earliest_fold_keysNodup :
    ∀ (hits : List (String × Option String × Nat))
      (acc : List (String × Option String × Nat)),
      ((acc.map (·.1)).Nodup) →
      (((hits.foldl (fun acc h => earliestIns h.1 h.2.1 h.2.2 acc) acc).map (·.1)).Nodup) := by
  intro hits
  induction hits with
  | nil => intro acc hacc; exact hacc
  | cons h hs ih =>
    intro acc hacc
    refine ih _ ?_
    rw [earliestIns_keys]
    by_cases hmem : h.1 ∈ acc.map (·.1)
    · rw [if_pos hmem]; exact hacc
    · rw [if_neg hmem]
      rw [List.nodup_append]
      exact ⟨hacc, by simp, by
        intro a ha hb
        simp at hb
        subst hb
        exact hmem ha⟩

theorem earliest_fold_lookup (f : String → Option String) :
    ∀ (hits : List (String × Option String × Nat))
      (acc : List (String × Option String × Nat)),
      (∀ h ∈ hits, h.2.1 = f h.1) → (∀ e ∈ acc, e.2.1 = f e.1) →
      ∀ t, (hits.foldl (fun acc h => earliestIns h.1 h.2.1 h.2.2 acc) acc).lookup t =
        mergeMin (acc.lookup t)
          (minNat? ((hits.filter fun h => h.1 == t).map fun h => h.2.2)) (f t) := by
  intro hits
  induction hits with
  | nil =>
    intro acc _ _ t
    show acc.lookup t = mergeMin (acc.lookup t) (minNat? []) (f t)
    cases acc.lookup t <;> rfl
  | cons h hs ih =>
    intro acc hinv hacc t
    have hinv' : ∀ x ∈ hs, x.2.1 = f x.1 := fun x hx => hinv x (List.mem_cons_of_mem _ hx)
    have hacc' : ∀ e ∈ earliestIns h.1 h.2.1 h.2.2 acc, e.2.1 = f e.1 := by
      intro e' he'
      rcases earliestIns_entry h.1 h.2.1 h.2.2 acc e' he' with hmem | hnew
      · exact hacc e' hmem
      · rw [hnew.2, hnew.1, hinv h (List.mem_cons_self _ _)]
    show (hs.foldl (fun acc h => earliestIns h.1 h.2.1 h.2.2 acc)
        (earliestIns h.1 h.2.1 h.2.2 acc)).lookup t = _
    rw [ih _ hinv' hacc' t, earliestIns_lookup]
    by_cases ht : t = h.1
    · rw [if_pos ht]
      have hfil : (((h :: hs).filter fun x => x.1 == t).map fun x => x.2.2) =
          h.2.2 :: ((hs.filter fun x => x.1 == t).map fun x => x.2.2) := by
        simp [List.filter_cons, ht.symm]
      rw [hfil, minNat?_cons]
      have hlg : h.2.1 = f t := by rw [hinv h (List.mem_cons_self _ _), ht]
      cases hstored : acc.lookup t with
      | none =>
        rw [hlg]
        cases minNat? ((hs.filter fun x => x.1 == t).map fun x => x.2.2) with
        | none => rfl
        | some m => rfl
      | some v =>
        have hv : v.1 = f t := by
          have := hacc (t, v) (lookup2_mem hstored)
          simpa using this
        change mergeMin (if h.2.2 < v.2 then some (h.2.1, h.2.2) else some v)
          (minNat? ((hs.filter fun x => x.1 == t).map fun x => x.2.2)) (f t) = _
        by_cases hp : h.2.2 < v.2
        · rw [if_pos hp, hlg]
          cases minNat? ((hs.filter fun x => x.1 == t).map fun x => x.2.2) with
          | none =>
            show some (f t, h.2.2) = some (f t, min v.2 h.2.2)
            rw [Nat.min_eq_right (le_of_lt hp)]
          | some m =>
            show some (f t, min h.2.2 m) = some (f t, min v.2 (min h.2.2 m))
            congr 1
            congr 1
            omega
        · rw [if_neg hp]
          cases minNat? ((hs.filter fun x => x.1 == t).map fun x => x.2.2) with
          | none =>
            show some v = some (f t, min v.2 h.2.2)
            rw [Nat.min_eq_left (le_of_not_lt hp), ← hv]
          | some m =>
            show some (f t, min v.2 m) = some (f t, min v.2 (min h.2.2 m))
            congr 1
            congr 1
            omega
    · rw [if_neg ht]
      have hfil : (((h :: hs).filter fun x => x.1 == t).map fun x => x.2.2) =
          ((hs.filter fun x => x.1 == t).map fun x => x.2.2) := by
        have : ¬(h.1 == t) = true := by simpa using fun he => ht he.symm
        simp [List.filter_cons, this]
      rw [hfil]

theorem rawHits_mem (team_to_league : List (String × String)) (patterns : List TPattern)
    (text : String) (t : String) (lg : Option String) (q : Nat) :
    (t, lg, q) ∈ rawHits team_to_league patterns text ↔
      ((∃ p ∈ patterns, t ∈ p.teams ∧
          q ∈ occList (text.data.map Char.toUpper) p.toks) ∧
        lg = team_to_league.lookup t) := by
  unfold rawHits
  simp only [List.mem_flatMap, List.mem_map, Prod.mk.injEq]
  constructor
  · rintro ⟨p, hp, pos, hpos, t', ht', rfl, rfl, rfl⟩
    exact ⟨⟨p, hp, ht', hpos⟩, rfl⟩
  · rintro ⟨⟨p, hp, ht, hq⟩, rfl⟩
    exact ⟨p, hp, q, hq, t, ht, rfl, rfl, rfl⟩

theorem occList_mem (U : List Char) (toks : List String) (q : Nat) :
    q ∈ occList U toks ↔ rxMatchAt U toks q = true ∧ q < U.length + 1 := by
  simp [occList, List.mem_filter, List.mem_range, and_comm]

theorem rxMatchAt_lt (U : List Char) (toks : List String) (htoks : toks ≠ [])
    (hne : ∀ tok ∈ toks, tok ≠ "") (q : Nat) (h : rxMatchAt U toks q = true) :
    q < U.length + 1 := by
  by_contra hq
  push_neg at hq
  have hdrop : U.drop q = [] := List.drop_eq_nil_of_le (by omega)
  have hfail : tokSeqEnd U q toks = none := by
    cases toks with
    | nil => exact absurd rfl htoks
    | cons tok rest =>
      have htok : tok.data ≠ [] := by
        intro hc
        exact hne tok (List.mem_cons_self _ _) (by cases tok; cases hc; rfl)
      have hpre : tok.data.isPrefixOf (U.drop q) = false := by
        rw [hdrop]
        cases hd : tok.data with
        | nil => exact absurd hd htok
        | cons c cs => rfl
      cases rest with
      | nil =>
        show (if tok.data.isPrefixOf (U.drop q) then _ else none) = none
        rw [hpre]
        rfl
      | cons tok2 rest2 =>
        show (if tok.data.isPrefixOf (U.drop q) then _ else none) = none
        rw [hpre]
        rfl
  rw [rxMatchAt, hfail] at h
  simp at h

end IngestTwitterCsv

/-- **C2 (amended).** For `ingest_twitter_csv.detect_teams` the claim
holds: each matched canonical team appears exactly once, tagged with the
leftmost position at which any of its alias patterns matches, paired with
its `team_to_league` lookup, the list is ordered by position ascending,
and every team with a match appears.  (The hypothesis states what
`load_dictionaries` guarantees about compiled patterns: token lists are
non-empty with non-empty tokens.  `analyze_twitter_text.detect_teams`
violates the claim: it returns bare team names ordered by alias length,
not by text position — see the counterexample.) -/
theorem claim_C2_amended_detect_teams (team_to_league : List (String × String))
    (patterns : List IngestTwitterCsv.TPattern) (text : String)
    (hpat : ∀ p ∈ patterns, p.toks ≠ [] ∧ ∀ tok ∈ p.toks, tok ≠ "") :
    ((IngestTwitterCsv.detect_teams team_to_league patterns text).map
        IngestTwitterCsv.Hit.team).Nodup ∧
    (IngestTwitterCsv.detect_teams team_to_league patterns text).Pairwise
      (fun a b => a.pos ≤ b.pos) ∧
    (∀ h ∈ IngestTwitterCsv.detect_teams team_to_league patterns text,
        IngestTwitterCsv.teamOccursAt patterns text h.team h.pos ∧
        (∀ q, IngestTwitterCsv.teamOccursAt patterns text h.team q → h.pos ≤ q) ∧
        h.league = team_to_league.lookup h.team) ∧
    (∀ t q, IngestTwitterCsv.teamOccursAt patterns text t q →
        ∃ h ∈ IngestTwitterCsv.detect_teams team_to_league patterns text,
          h.team = t) := by
  open IngestTwitterCsv in
  have hiff : ∀ t q, q ∈ (((rawHits team_to_league patterns text).filter
      fun h => h.1 == t).map fun h => h.2.2) ↔ teamOccursAt patterns text t q := by
    intro t q
    constructor
    · intro hq
      rcases List.mem_map.mp hq with ⟨x, hx, rfl⟩
      rcases List.mem_filter.mp hx with ⟨hxr, hxt⟩
      obtain ⟨a, b, c⟩ := x
      have hat : a = t := by simpa using hxt
      subst hat
      obtain ⟨⟨p, hp, hteam, hocc⟩, -⟩ :=
        (IngestTwitterCsv.rawHits_mem team_to_league patterns text a b c).mp hxr
      exact ⟨p, hp, hteam, ((IngestTwitterCsv.occList_mem _ _ _).mp hocc).1⟩
    · rintro ⟨p, hp, hteam, hrx⟩
      refine List.mem_map.mpr ⟨(t, team_to_league.lookup t, q), ?_, rfl⟩
      refine List.mem_filter.mpr ⟨?_, by simp⟩
      refine (IngestTwitterCsv.rawHits_mem team_to_league patterns text t _ q).mpr
        ⟨⟨p, hp, hteam, ?_⟩, rfl⟩
      exact (IngestTwitterCsv.occList_mem _ _ _).mpr
        ⟨hrx, IngestTwitterCsv.rxMatchAt_lt _ _ (hpat p hp).1 (hpat p hp).2 q hrx⟩
  open IngestTwitterCsv in
  have hinvh : ∀ h ∈ rawHits team_to_league patterns text,
      h.2.1 = team_to_league.lookup h.1 := by
    intro h hh
    obtain ⟨a, b, c⟩ := h
    exact ((IngestTwitterCsv.rawHits_mem team_to_league patterns text a b c).mp hh).2
  by_cases hemp : (IngestTwitterCsv.rawHits team_to_league patterns text).isEmpty
  · have hdet : IngestTwitterCsv.detect_teams team_to_league patterns text = [] := by
      unfold IngestTwitterCsv.detect_teams
      rw [if_pos hemp]
    rw [hdet]
    refine ⟨by simp, by simp, by simp, ?_⟩
    intro t q hocc
    exfalso
    have hq := (hiff t q).mpr hocc
    rcases List.mem_map.mp hq with ⟨x, hx, -⟩
    rcases List.mem_filter.mp hx with ⟨hxr, -⟩
    rw [List.isEmpty_iff] at hemp
    rw [hemp] at hxr
    cases hxr
  · have hdet : IngestTwitterCsv.detect_teams team_to_league patterns text =
        SplitsFeed.sortOn IngestTwitterCsv.Hit.pos
          (((IngestTwitterCsv.rawHits team_to_league patterns text).foldl
            (fun acc h => IngestTwitterCsv.earliestIns h.1 h.2.1 h.2.2 acc) []).map
              fun e => IngestTwitterCsv.Hit.mk e.1 e.2.1 e.2.2) := by
      unfold IngestTwitterCsv.detect_teams
      rw [if_neg hemp]
    open IngestTwitterCsv in
    have hlook : ∀ t, ((rawHits team_to_league patterns text).foldl
        (fun acc h => earliestIns h.1 h.2.1 h.2.2 acc) []).lookup t =
        match minNat? (((rawHits team_to_league patterns text).filter
            fun h => h.1 == t).map fun h => h.2.2) with
        | none => none
        | some m => some (team_to_league.lookup t, m) := by
      intro t
      rw [IngestTwitterCsv.earliest_fold_lookup (fun s => team_to_league.lookup s) _ []
        hinvh (by simp) t]
      show IngestTwitterCsv.mergeMin none _ _ = _
      cases minNat? (((rawHits team_to_league patterns text).filter
          fun h => h.1 == t).map fun h => h.2.2) with
      | none => rfl
      | some m => rfl
    open IngestTwitterCsv in
    have hkeys : ((((rawHits team_to_league patterns text).foldl
        (fun acc h => earliestIns h.1 h.2.1 h.2.2 acc) []).map (·.1)).Nodup) :=
      IngestTwitterCsv.earliest_fold_keysNodup _ [] (by simp)
    open IngestTwitterCsv in
    have hperm : List.Perm (detect_teams team_to_league patterns text)
        (((rawHits team_to_league patterns text).foldl
          (fun acc h => earliestIns h.1 h.2.1 h.2.2 acc) []).map
            fun e => Hit.mk e.1 e.2.1 e.2.2) := by
      rw [hdet]
      exact SplitsFeed.sortOn_perm _ _
    refine ⟨?_, ?_, ?_, ?_⟩
    · open IngestTwitterCsv in
      have hmm : ((((rawHits team_to_league patterns text).foldl
          (fun acc h => earliestIns h.1 h.2.1 h.2.2 acc) []).map
            fun e => Hit.mk e.1 e.2.1 e.2.2).map Hit.team) =
          (((rawHits team_to_league patterns text).foldl
            (fun acc h => earliestIns h.1 h.2.1 h.2.2 acc) []).map (·.1)) := by
        rw [List.map_map]
        rfl
      have hp2 := (hperm.map IngestTwitterCsv.Hit.team)
      rw [hmm] at hp2
      exact hp2.nodup_iff.mpr hkeys
    · rw [hdet]
      exact SplitsFeed.sortOn_pairwise _ _
    · intro h hh
      open IngestTwitterCsv in
      rcases List.mem_map.mp (hperm.mem_iff.mp hh) with ⟨e, heE, rfl⟩
      obtain ⟨a, b, c⟩ := e
      have helook := SplitsFeed.lookup2_of_mem_nodupKeys hkeys heE
      rw [hlook a] at helook
      cases hmin : minNat? (((rawHits team_to_league patterns text).filter
          fun h => h.1 == a).map fun h => h.2.2) with
      | none => rw [hmin] at helook; cases helook
      | some m =>
        rw [hmin] at helook
        have hbc : (team_to_league.lookup a, m) = (b, c) := by
          injection helook
        have hb : team_to_league.lookup a = b := congrArg Prod.fst hbc
        have hc : m = c := congrArg Prod.snd hbc
        obtain ⟨hmem, hle⟩ := SplitsFeed.minNat?_spec _ _ hmin
        subst hc
        refine ⟨(hiff a m).mp hmem, ?_, hb.symm⟩
        intro q hq
        exact hle q ((hiff a q).mpr hq)
    · intro t q hocc
      open IngestTwitterCsv in
      have hq := (hiff t q).mpr hocc
      have hnonempty : (((rawHits team_to_league patterns text).filter
          fun h => h.1 == t).map fun h => h.2.2) ≠ [] := by
        intro hnil
        rw [hnil] at hq
        cases hq
      obtain ⟨m, hm⟩ :=
        Option.isSome_iff_exists.mp (SplitsFeed.minNat?_isSome hnonempty)
      have hlookt : (((rawHits team_to_league patterns text).foldl
          (fun acc h => earliestIns h.1 h.2.1 h.2.2 acc) []).lookup t) =
          some (team_to_league.lookup t, m) := by
        rw [hlook t, hm]
      refine ⟨Hit.mk t (team_to_league.lookup t) m, ?_, rfl⟩
      exact hperm.mem_iff.mpr
        (List.mem_map.mpr ⟨(t, (team_to_league.lookup t, m)),
          SplitsFeed.lookup2_mem hlookt, rfl⟩)

/-- Witness for C2 at a concrete input: one pattern for the Chiefs on a
text mentioning them; the theorem yields the uniqueness and ordering
facts. -/
theorem claim_C2_amended_detect_teams_witness :
    ((IngestTwitterCsv.detect_teams [("Kansas City Chiefs", "NFL")]
        [⟨["CHIEFS"], "CHIEFS", ["Kansas City Chiefs"]⟩] "Chiefs vs Bills").map
      IngestTwitterCsv.Hit.team).Nodup ∧
    (IngestTwitterCsv.detect_teams [("Kansas City Chiefs", "NFL")]
        [⟨["CHIEFS"], "CHIEFS", ["Kansas City Chiefs"]⟩] "Chiefs vs Bills").Pairwise
      (fun a b => a.pos ≤ b.pos) := by
  have h := claim_C2_amended_detect_teams [("Kansas City Chiefs", "NFL")]
    [⟨["CHIEFS"], "CHIEFS", ["Kansas City Chiefs"]⟩] "Chiefs vs Bills" (by decide)
  exact ⟨h.1, h.2.1⟩

/-- **C2 (counterexample).** `analyze_twitter_text.detect_teams` on the
dictionary `{Dallas Cowboys, Kansas City Chiefs}` and the text
`"Cowboys will beat the Kansas City Chiefs"` returns the Chiefs *first*
(longest-alias probe order) and records no positions, although a Cowboys
alias matches at position 0 while no Chiefs alias matches before
position 22 — refuting "each matched team tagged with its leftmost
position, ordered by position ascending" for this implementation. -/
theorem claim_C2_counterexample :
    AnalyzeTwitterText.detect_teams
      (AnalyzeTwitterText.load_dicts
        [[("Dallas Cowboys", []), ("Kansas City Chiefs", [])]]).1
      (AnalyzeTwitterText.load_dicts
        [[("Dallas Cowboys", []), ("Kansas City Chiefs", [])]]).2
      "Cowboys will beat the Kansas City Chiefs" =
        ["Kansas City Chiefs", "Dallas Cowboys"] ∧
    AnalyzeTwitterText.rxHitAt "COWBOYS"
      (SplitsFeed.pyUpper "Cowboys will beat the Kansas City Chiefs") 0 = true ∧
    ((List.range 22).all fun i =>
      !(AnalyzeTwitterText.rxHitAt "KANSAS CITY CHIEFS"
          (SplitsFeed.pyUpper "Cowboys will beat the Kansas City Chiefs") i ||
        AnalyzeTwitterText.rxHitAt "KANSAS CITY"
          (SplitsFeed.pyUpper "Cowboys will beat the Kansas City Chiefs") i ||
        AnalyzeTwitterText.rxHitAt "CHIEFS"
          (SplitsFeed.pyUpper "Cowboys will beat the Kansas City Chiefs") i ||
        AnalyzeTwitterText.rxHitAt "KC"
          (SplitsFeed.pyUpper "Cowboys will beat the Kansas City Chiefs") i)) = true := by
  refine ⟨by decide, by decide, by decide⟩

namespace SplitsFeed

theorem pyMaxBy_foldl_mem [LinearOrder κ] (f : α → κ) :
    ∀ (xs : List α) (x : α),
      xs.foldl (fun b y => if f b < f y then y else b) x ∈ x :: xs := by
  intro xs
  induction xs with
  | nil => intro x; exact List.mem_cons_self _ _
  | cons y ys ih =>
    intro x
    show ys.foldl (fun b y => if f b < f y then y else b)
      (if f x < f y then y else x) ∈ x :: y :: ys
    rcases List.mem_cons.mp (ih (if f x < f y then y else x)) with heq | hmem
    · rw [heq]
      by_cases hxy : f x < f y
      · rw [if_pos hxy]; exact List.mem_cons_of_mem _ (List.mem_cons_self _ _)
      · rw [if_neg hxy]; exact List.mem_cons_self _ _
    · exact List.mem_cons_of_mem _ (List.mem_cons_of_mem _ hmem)

theorem pyMaxBy_foldl_le [LinearOrder κ] (f : α → κ) :
    ∀ (xs : List α) (x : α),
      (∀ z ∈ x :: xs, f z ≤ f (xs.foldl (fun b y => if f b < f y then y else b) x)) := by
  intro xs
  induction xs with
  | nil =>
    intro x z hz
    rcases List.mem_cons.mp hz with rfl | hz
    · exact le_refl _
    · cases hz
  | cons y ys ih =>
    intro x z hz
    show f z ≤ f (ys.foldl (fun b y => if f b < f y then y else b)
      (if f x < f y then y else x))
    have hx : f x ≤ f (if f x < f y then y else x) := by
      by_cases hxy : f x < f y
      · rw [if_pos hxy]; exact le_of_lt hxy
      · rw [if_neg hxy]
    have hy : f y ≤ f (if f x < f y then y else x) := by
      by_cases hxy : f x < f y
      · rw [if_pos hxy]
      · rw [if_neg hxy]; exact le_of_not_lt hxy
    rcases List.mem_cons.mp hz with rfl | hz
    · exact le_trans hx (ih _ _ (List.mem_cons_self _ _))
    · rcases List.mem_cons.mp hz with rfl | hz
      · exact le_trans hy (ih _ _ (List.mem_cons_self _ _))
      · exact ih _ _ (List.mem_cons_of_mem _ hz)

theorem pyMaxBy_mem [LinearOrder κ] (f : α → κ) {l : List α} {m : α}
    (h : pyMaxBy f l = some m) : m ∈ l := by
  cases l with
  | nil => cases h
  | cons x xs =>
    have hm : m = xs.foldl (fun b y => if f b < f y then y else b) x := by
      cases h; rfl
    rw [hm]
    exact pyMaxBy_foldl_mem f xs x

theorem pyMaxBy_le [LinearOrder κ] (f : α → κ) {l : List α} {m : α}
    (h : pyMaxBy f l = some m) : ∀ z ∈ l, f z ≤ f m := by
  cases l with
  | nil => cases h
  | cons x xs =>
    have hm : m = xs.foldl (fun b y => if f b < f y then y else b) x := by
      cases h; rfl
    rw [hm]
    exact pyMaxBy_foldl_le f xs x

theorem pyMinBy_foldl_mem [LinearOrder κ] (f : α → κ) :
    ∀ (xs : List α) (x : α),
      xs.foldl (fun b y => if f y < f b then y else b) x ∈ x :: xs := by
  intro xs
  induction xs with
  | nil => intro x; exact List.mem_cons_self _ _
  | cons y ys ih =>
    intro x
    show ys.foldl (fun b y => if f y < f b then y else b)
      (if f y < f x then y else x) ∈ x :: y :: ys
    rcases List.mem_cons.mp (ih (if f y < f x then y else x)) with heq | hmem
    · rw [heq]
      by_cases hxy : f y < f x
      · rw [if_pos hxy]; exact List.mem_cons_of_mem _ (List.mem_cons_self _ _)
      · rw [if_neg hxy]; exact List.mem_cons_self _ _
    · exact List.mem_cons_of_mem _ (List.mem_cons_of_mem _ hmem)

theorem pyMinBy_foldl_le [LinearOrder κ] (f : α → κ) :
    ∀ (xs : List α) (x : α),
      (∀ z ∈ x :: xs, f (xs.foldl (fun b y => if f y < f b then y else b) x) ≤ f z) := by
  intro xs
  induction xs with
  | nil =>
    intro x z hz
    rcases List.mem_cons.mp hz with rfl | hz
    · exact le_refl _
    · cases hz
  | cons y ys ih =>
    intro x z hz
    show f (ys.foldl (fun b y => if f y < f b then y else b)
      (if f y < f x then y else x)) ≤ f z
    have hx : f (if f y < f x then y else x) ≤ f x := by
      by_cases hxy : f y < f x
      · rw [if_pos hxy]; exact le_of_lt hxy
      · rw [if_neg hxy]
    have hy : f (if f y < f x then y else x) ≤ f y := by
      by_cases hxy : f y < f x
      · rw [if_pos hxy]
      · rw [if_neg hxy]; exact le_of_not_lt hxy
    rcases List.mem_cons.mp hz with rfl | hz
    · exact le_trans (ih _ _ (List.mem_cons_self _ _)) hx
    · rcases List.mem_cons.mp hz with rfl | hz
      · exact le_trans (ih _ _ (List.mem_cons_self _ _)) hy
      · exact ih _ _ (List.mem_cons_of_mem _ hz)

theorem pyMinBy_mem [LinearOrder κ] (f : α → κ) {l : List α} {m : α}
    (h : pyMinBy f l = some m) : m ∈ l := by
  cases l with
  | nil => cases h
  | cons x xs =>
    have hm : m = xs.foldl (fun b y => if f y < f b then y else b) x := by
      cases h; rfl
    rw [hm]
    exact pyMinBy_foldl_mem f xs x

theorem pyMinBy_le [LinearOrder κ] (f : α → κ) {l : List α} {m : α}
    (h : pyMinBy f l = some m) : ∀ z ∈ l, f m ≤ f z := by
  cases l with
  | nil => cases h
  | cons x xs =>
    have hm : m = xs.foldl (fun b y => if f y < f b then y else b) x := by
      cases h; rfl
    rw [hm]
    exact pyMinBy_foldl_le f xs x

theorem stableInsert_map {β : Type} [LinearOrder κ] (k₂ : β → κ) (g : α → β) (x : α) :
    ∀ l : List α,
      stableInsert k₂ (g x) (l.map g) = (stableInsert (fun a => k₂ (g a)) x l).map g := by
  intro l
  induction l with
  | nil => rfl
  | cons y ys ih =>
    show (if k₂ (g y) ≤ k₂ (g x) then g y :: stableInsert k₂ (g x) (ys.map g)
      else g x :: g y :: ys.map g) = _
    by_cases h : k₂ (g y) ≤ k₂ (g x)
    · rw [if_pos h, ih]
      show _ = ((if k₂ (g y) ≤ k₂ (g x) then y :: stableInsert _ x ys
        else x :: y :: ys).map g)
      rw [if_pos h]
      rfl
    · rw [if_neg h]
      show _ = ((if k₂ (g y) ≤ k₂ (g x) then y :: stableInsert _ x ys
        else x :: y :: ys).map g)
      rw [if_neg h]
      rfl

theorem sortOn_map {β : Type} [LinearOrder κ] (k₂ : β → κ) (g : α → β) (l : List α) :
    sortOn k₂ (l.map g) = (sortOn (fun a => k₂ (g a)) l).map g := by
  have haux : ∀ (l : List α) (acc : List α),
      (l.map g).foldl (fun acc x => stableInsert k₂ x acc) (acc.map g) =
        (l.foldl (fun acc x => stableInsert (fun a => k₂ (g a)) x acc) acc).map g := by
    intro l
    induction l with
    | nil => intro acc; rfl
    | cons x xs ih =>
      intro acc
      show (xs.map g).foldl _ (stableInsert k₂ (g x) (acc.map g)) = _
      rw [stableInsert_map k₂ g x acc, ih]
      rfl
  simpa using haux l []

end SplitsFeed

namespace IngestTwitterCsv

open SplitsFeed

theorem groupIns_lookup (lg : Option String) (tp : String × Nat) :
    ∀ (acc : List (Option String × List (String × Nat))) (k : Option String),
      (groupIns lg tp acc).lookup k =
        if k = lg then some (((acc.lookup lg).getD []) ++ [tp])
        else acc.lookup k := by
  intro acc
  induction acc with
  | nil =>
    intro k
    by_cases hk : k = lg
    · subst hk; simp [groupIns, lookup2_cons]
    · simp [groupIns, lookup2_cons, hk, (by simpa using hk : ¬(k == lg) = true)]
  | cons e acc ih =>
    intro k
    obtain ⟨k₀, arr⟩ := e
    show ((if k₀ = lg then (k₀, arr ++ [tp]) :: acc
      else (k₀, arr) :: groupIns lg tp acc).lookup k) = _
    by_cases hk0 : k₀ = lg
    · subst hk0
      by_cases hk : k = k₀
      · subst hk; simp [lookup2_cons]
      · simp [lookup2_cons, hk, (by simpa using hk : ¬(k == k₀) = true)]
    · by_cases hk : k = k₀
      · subst hk
        simp [lookup2_cons, hk0]
      · by_cases hklg : k = lg
        · subst hklg
          have hb : ¬(k == k₀) = true := by simpa using hk
          simp [lookup2_cons, ih, hk0, hb]
        · have hb : ¬(k == k₀) = true := by simpa using hk
          simp [lookup2_cons, ih, hk0, hklg, hb]

theorem buildGroups_fold_lookup :
    ∀ (hits : List Hit) (acc : List (Option String × List (String × Nat)))
      (lg : Option String),
      (hits.foldl (fun acc h => groupIns h.league (h.team, h.pos) acc) acc).lookup lg =
        groupAppend (acc.lookup lg)
          ((hits.filter fun h => h.league == lg).map fun h => (h.team, h.pos)) := by
  intro hits
  induction hits with
  | nil =>
    intro acc lg
    show acc.lookup lg = groupAppend (acc.lookup lg) []
    cases acc.lookup lg with
    | none => rfl
    | some v => show some v = some (v ++ []); rw [List.append_nil]
  | cons h hs ih =>
    intro acc lg
    show (hs.foldl (fun acc h => groupIns h.league (h.team, h.pos) acc)
      (groupIns h.league (h.team, h.pos) acc)).lookup lg = _
    rw [ih, groupIns_lookup]
    by_cases hlg : lg = h.league
    · rw [if_pos hlg]
      have hfil : ((h :: hs).filter fun x => x.league == lg).map
            (fun x => (x.team, x.pos)) =
          (h.team, h.pos) :: ((hs.filter fun x => x.league == lg).map
            fun x => (x.team, x.pos)) := by
        simp [List.filter_cons, hlg.symm]
      rw [hfil, hlg]
      cases acc.lookup h.league with
      | none => rfl
      | some v => show some _ = some _; rw [List.append_assoc]; rfl
    · rw [if_neg hlg]
      have hfil : ((h :: hs).filter fun x => x.league == lg).map
            (fun x => (x.team, x.pos)) =
          ((hs.filter fun x => x.league == lg).map fun x => (x.team, x.pos)) := by
        have : ¬(h.league == lg) = true := by simpa using fun he => hlg he.symm
        simp [List.filter_cons, this]
      rw [hfil]

theorem buildGroups_lookup (hits : List Hit) (lg : Option String) :
    (buildGroups hits).lookup lg =
      groupAppend none ((hits.filter fun h => h.league == lg).map
        fun h => (h.team, h.pos)) :=
  buildGroups_fold_lookup hits [] lg

theorem buildGroups_getD (hits : List Hit) (lg : Option String) :
    ((buildGroups hits).lookup lg).getD [] =
      (leagueHits hits lg).map fun h => (h.team, h.pos) := by
  rw [buildGroups_lookup]
  cases hfil : ((hits.filter fun h => h.league == lg).map fun h => (h.team, h.pos)) with
  | nil => show ([] : List (String × Nat)) = _; rw [← hfil]; rfl
  | cons x xs => show x :: xs = _; rw [← hfil]; rfl

theorem buildGroups_keys (hits : List Hit) (lg : Option String) :
    (lg ∈ (buildGroups hits).map (·.1)) ↔ ∃ h ∈ hits, h.league = lg := by
  rw [← lookup2_isSome_iff, buildGroups_lookup]
  cases hfil : ((hits.filter fun h => h.league == lg).map fun h => (h.team, h.pos)) with
  | nil =>
    simp only [groupAppend]
    constructor
    · intro hc; cases hc
    · rintro ⟨h, hh, hhl⟩
      exfalso
      have : h ∈ hits.filter fun x => x.league == lg :=
        List.mem_filter.mpr ⟨hh, by simp [hhl]⟩
      have : (h.team, h.pos) ∈ ((hits.filter fun x => x.league == lg).map
          fun x => (x.team, x.pos)) := List.mem_map.mpr ⟨h, this, rfl⟩
      rw [hfil] at this
      cases this
  | cons x xs =>
    simp only [groupAppend]
    constructor
    · intro _
      have hx : x ∈ ((hits.filter fun h => h.league == lg).map
          fun h => (h.team, h.pos)) := by rw [hfil]; exact List.mem_cons_self _ _
      rcases List.mem_map.mp hx with ⟨h, hh, -⟩
      rcases List.mem_filter.mp hh with ⟨hh2, hleq⟩
      exact ⟨h, hh2, by simpa using hleq⟩
    · intro _; rfl

theorem leagueHits_team_nodup (hits : List Hit) (lg : Option String)
    (hnodup : (hits.map Hit.team).Nodup) :
    ((leagueHits hits lg).map Hit.team).Nodup :=
  List.Nodup.sublist (List.Sublist.map Hit.team (List.filter_sublist hits)) hnodup

theorem earliest_two (hits : List Hit) (lg : Option String)
    (hnodup : (hits.map Hit.team).Nodup)
    (hlen : 2 ≤ (leagueHits hits lg).length) :
    ∃ a b tl, sortOn Prod.snd (((buildGroups hits).lookup lg).getD []) =
        (a.team, a.pos) :: (b.team, b.pos) :: tl ∧
      a ∈ leagueHits hits lg ∧ b ∈ leagueHits hits lg ∧ a.team ≠ b.team ∧
      (∀ c ∈ leagueHits hits lg, a.pos ≤ c.pos) ∧
      (∀ c ∈ leagueHits hits lg, c.team ≠ a.team → b.pos ≤ c.pos) := by
  rw [buildGroups_getD,
    sortOn_map Prod.snd (fun h => (h.team, h.pos)) (leagueHits hits lg)]
  have hperm := sortOn_perm (fun a : Hit => Prod.snd (a.team, a.pos))
    (leagueHits hits lg)
  have hsorted := sortOn_pairwise (fun a : Hit => Prod.snd (a.team, a.pos))
    (leagueHits hits lg)
  have hlen2 : 2 ≤ (sortOn (fun a : Hit => Prod.snd (a.team, a.pos))
      (leagueHits hits lg)).length := by
    rw [hperm.length_eq]; exact hlen
  obtain ⟨a, b, tl, hcons⟩ : ∃ a b tl,
      sortOn (fun a : Hit => Prod.snd (a.team, a.pos)) (leagueHits hits lg) =
        a :: b :: tl := by
    cases hs : sortOn (fun a : Hit => Prod.snd (a.team, a.pos)) (leagueHits hits lg) with
    | nil => rw [hs] at hlen2; simp at hlen2
    | cons a rest =>
      cases rest with
      | nil => rw [hs] at hlen2; simp at hlen2
      | cons b tl => exact ⟨a, b, tl, rfl⟩
  have hmema : a ∈ leagueHits hits lg := by
    refine hperm.mem_iff.mp ?_
    rw [hcons]
    exact List.mem_cons_self _ _
  have hmemb : b ∈ leagueHits hits lg := by
    refine hperm.mem_iff.mp ?_
    rw [hcons]
    exact List.mem_cons_of_mem _ (List.mem_cons_self _ _)
  have hsnodup : (((sortOn (fun a : Hit => Prod.snd (a.team, a.pos))
      (leagueHits hits lg)).map Hit.team).Nodup) :=
    (hperm.map Hit.team).nodup_iff.mpr (leagueHits_team_nodup hits lg hnodup)
  rw [hcons] at hsorted hsnodup
  rcases List.pairwise_cons.mp hsorted with ⟨ha, hsorted2⟩
  rcases List.pairwise_cons.mp hsorted2 with ⟨hb, -⟩
  have hab : a.team ≠ b.team := by
    rw [List.map_cons, List.nodup_cons] at hsnodup
    intro he
    exact hsnodup.1 (by
      rw [List.map_cons]
      exact he ▸ List.mem_cons_self _ _)
  refine ⟨a, b, tl.map (fun h => (h.team, h.pos)), by rw [hcons]; rfl,
    hmema, hmemb, hab, ?_, ?_⟩
  · intro c hc
    have hcs : c ∈ a :: b :: tl := by
      rw [← hcons]
      exact hperm.mem_iff.mpr hc
    rcases List.mem_cons.mp hcs with rfl | hcs
    · exact le_refl _
    · exact ha c hcs
  · intro c hc hcteam
    have hcs : c ∈ a :: b :: tl := by
      rw [← hcons]
      exact hperm.mem_iff.mpr hc
    rcases List.mem_cons.mp hcs with rfl | hcs
    · exact absurd rfl hcteam
    · rcases List.mem_cons.mp hcs with rfl | hcs
      · exact le_refl _
      · exact hb c hcs

end IngestTwitterCsv

/-- **C1.** `choose_pair_from_hits` on a hit list with pairwise-distinct
teams (as `detect_teams` always produces): with fewer than 2 hits it
returns `None`; with a hint league holding at least 2 (distinct-team) hits
it returns that league's earliest two teams by text position with method
`HINT_DOMINANT`; otherwise it picks a winning league that maximises the
hit count, breaking count ties by smallest second-earliest position
(`second_pos`), and returns that league's earliest two teams with method
`DOMINANT_LEAGUE` — or `None` when the winner has fewer than 2 hits. -/
theorem claim_C1_choose_pair (hits : List IngestTwitterCsv.Hit)
    (hint : Option String)
    (hnodup : (hits.map IngestTwitterCsv.Hit.team).Nodup) :
    (hits.length < 2 → IngestTwitterCsv.choose_pair_from_hits hits hint = none) ∧
    (∀ hl : String, hint = some hl →
      2 ≤ (IngestTwitterCsv.leagueHits hits (some hl)).length →
      ∃ a b : IngestTwitterCsv.Hit,
        a ∈ IngestTwitterCsv.leagueHits hits (some hl) ∧
        b ∈ IngestTwitterCsv.leagueHits hits (some hl) ∧
        a.team ≠ b.team ∧
        (∀ c ∈ IngestTwitterCsv.leagueHits hits (some hl), a.pos ≤ c.pos) ∧
        (∀ c ∈ IngestTwitterCsv.leagueHits hits (some hl),
          c.team ≠ a.team → b.pos ≤ c.pos) ∧
        IngestTwitterCsv.choose_pair_from_hits hits hint =
          some (a.team, b.team, some hl, "HINT_DOMINANT")) ∧
    ((match hint with
      | some hl => (IngestTwitterCsv.leagueHits hits (some hl)).length < 2
      | none => True) → 2 ≤ hits.length →
      ∃ win : Option String,
        (∃ h ∈ hits, h.league = win) ∧
        (∀ lg : Option String, (∃ h ∈ hits, h.league = lg) →
          (IngestTwitterCsv.leagueHits hits lg).length ≤
            (IngestTwitterCsv.leagueHits hits win).length) ∧
        (∀ lg : Option String, (∃ h ∈ hits, h.league = lg) →
          (IngestTwitterCsv.leagueHits hits lg).length =
            (IngestTwitterCsv.leagueHits hits win).length →
          IngestTwitterCsv.second_pos (IngestTwitterCsv.buildGroups hits) win ≤
            IngestTwitterCsv.second_pos (IngestTwitterCsv.buildGroups hits) lg) ∧
        ((2 ≤ (IngestTwitterCsv.leagueHits hits win).length →
          ∃ a b : IngestTwitterCsv.Hit,
            a ∈ IngestTwitterCsv.leagueHits hits win ∧
            b ∈ IngestTwitterCsv.leagueHits hits win ∧
            a.team ≠ b.team ∧
            (∀ c ∈ IngestTwitterCsv.leagueHits hits win, a.pos ≤ c.pos) ∧
            (∀ c ∈ IngestTwitterCsv.leagueHits hits win,
              c.team ≠ a.team → b.pos ≤ c.pos) ∧
            IngestTwitterCsv.choose_pair_from_hits hits hint =
              some (a.team, b.team, win, "DOMINANT_LEAGUE")) ∧
         ((IngestTwitterCsv.leagueHits hits win).length < 2 →
          IngestTwitterCsv.choose_pair_from_hits hits hint = none))) := by
  open IngestTwitterCsv in
  have hcp : choose_pair_from_hits hits hint =
      (if hits.length < 2 then none
       else match hintBranch (buildGroups hits) hint with
         | some r => some r
         | none => dominantBranch (buildGroups hits)) := rfl
  refine ⟨?_, ?_, ?_⟩
  · intro h2
    rw [hcp, if_pos h2]
  · open IngestTwitterCsv in
    intro hl hhl hlen
    subst hhl
    have hguard : ¬ hits.length < 2 :=
      not_lt.mpr (le_trans hlen (List.length_filter_le _ hits))
    obtain ⟨a, b, tl, hsort, hma, hmb, hab, hmin1, hmin2⟩ :=
      earliest_two hits (some hl) hnodup hlen
    cases hlk0 : (buildGroups hits).lookup (some hl) with
    | none =>
      exfalso
      have hgd := buildGroups_getD hits (some hl)
      rw [hlk0] at hgd
      have : (leagueHits hits (some hl)).length = 0 := by
        rw [← List.length_map (leagueHits hits (some hl)) (fun h => (h.team, h.pos)),
          ← hgd]
        rfl
      omega
    | some arr =>
      have hgd := buildGroups_getD hits (some hl)
      rw [hlk0] at hgd
      have harr : arr = (leagueHits hits (some hl)).map fun h => (h.team, h.pos) := hgd
      have harrlen : 2 ≤ arr.length := by
        rw [harr, List.length_map]; exact hlen
      have hsort' : sortOn Prod.snd arr =
          (a.team, a.pos) :: (b.team, b.pos) :: tl := by
        rw [show arr = ((buildGroups hits).lookup (some hl)).getD [] by
          rw [hlk0]; rfl]
        exact hsort
      have hb : hintBranch (buildGroups hits) (some hl) =
          some (a.team, b.team, some hl, "HINT_DOMINANT") := by
        show (match (buildGroups hits).lookup (some hl) with
          | some arr =>
            if 2 ≤ arr.length then
              match sortOn Prod.snd arr with
              | x :: y :: _ => some (x.1, y.1, some hl, "HINT_DOMINANT")
              | _ => none
            else none
          | none => none) = _
        rw [hlk0]
        show (if 2 ≤ arr.length then
            match sortOn Prod.snd arr with
            | x :: y :: _ => some (x.1, y.1, some hl, "HINT_DOMINANT")
            | _ => none
          else none) = _
        rw [if_pos harrlen, hsort']
      refine ⟨a, b, hma, hmb, hab, hmin1, hmin2, ?_⟩
      rw [hcp, if_neg hguard, hb]
  · open IngestTwitterCsv in
    intro hhint h2
    have hguard : ¬ hits.length < 2 := not_lt.mpr h2
    have hbnone : hintBranch (buildGroups hits) hint = none := by
      cases hint with
      | none => rfl
      | some hl =>
        show (match (buildGroups hits).lookup (some hl) with
          | some arr =>
            if 2 ≤ arr.length then
              match sortOn Prod.snd arr with
              | x :: y :: _ => some (x.1, y.1, some hl, "HINT_DOMINANT")
              | _ => none
            else none
          | none => none) = none
        cases hlk0 : (buildGroups hits).lookup (some hl) with
        | none => rfl
        | some arr =>
          have hgd := buildGroups_getD hits (some hl)
          rw [hlk0] at hgd
          have harrlen : arr.length < 2 := by
            rw [show arr = (leagueHits hits (some hl)).map
                (fun h => (h.team, h.pos)) from hgd, List.length_map]
            exact hhint
          show (if 2 ≤ arr.length then _ else none) = none
          rw [if_neg (by omega)]
    have hres : choose_pair_from_hits hits hint = dominantBranch (buildGroups hits) := by
      rw [hcp, if_neg hguard, hbnone]
    have hcount : ∀ lg, (((buildGroups hits).lookup lg).getD []).length =
        (leagueHits hits lg).length := by
      intro lg
      rw [buildGroups_getD, List.length_map]
    obtain ⟨h0, hs0, hhits⟩ : ∃ h0 hs0, hits = h0 :: hs0 := by
      cases hits with
      | nil => simp at h2
      | cons h0 hs0 => exact ⟨h0, hs0, rfl⟩
    have hkey0 : h0.league ∈ (buildGroups hits).map (·.1) :=
      (buildGroups_keys hits h0.league).mpr
        ⟨h0, by rw [hhits]; exact List.mem_cons_self _ _, rfl⟩
    cases hmax : pyMaxBy (fun lg => (((buildGroups hits).lookup lg).getD []).length)
        ((buildGroups hits).map (·.1)) with
    | none =>
      exfalso
      cases hkeys0 : (buildGroups hits).map (·.1) with
      | nil => rw [hkeys0] at hkey0; cases hkey0
      | cons k ks => rw [hkeys0] at hmax; cases hmax
    | some dom0 =>
      have hdb : dominantBranch (buildGroups hits) =
          match sortOn Prod.snd (((buildGroups hits).lookup
              (winnerOf (buildGroups hits) dom0)).getD []) with
          | x :: y :: _ => some (x.1, y.1, winnerOf (buildGroups hits) dom0,
              "DOMINANT_LEAGUE")
          | _ => none := by
        show (match pyMaxBy (fun lg => (((buildGroups hits).lookup lg).getD []).length)
            ((buildGroups hits).map (·.1)) with
          | none => none
          | some dom0 =>
            match sortOn Prod.snd (((buildGroups hits).lookup
                (winnerOf (buildGroups hits) dom0)).getD []) with
            | x :: y :: _ => some (x.1, y.1, winnerOf (buildGroups hits) dom0,
                "DOMINANT_LEAGUE")
            | _ => none) = _
        rw [hmax]
      have hdom0mem : dom0 ∈ tiedOf (buildGroups hits) dom0 :=
        List.mem_filter.mpr ⟨pyMaxBy_mem _ hmax, by simp⟩
      have hwintied : winnerOf (buildGroups hits) dom0 ∈ tiedOf (buildGroups hits) dom0 := by
        unfold winnerOf
        by_cases h1 : 1 < (tiedOf (buildGroups hits) dom0).length
        · rw [if_pos h1]
          cases hmin : pyMinBy (second_pos (buildGroups hits))
              (tiedOf (buildGroups hits) dom0) with
          | none =>
            exfalso
            cases htd : tiedOf (buildGroups hits) dom0 with
            | nil => rw [htd] at hdom0mem; cases hdom0mem
            | cons x xs => rw [htd] at hmin; cases hmin
          | some w =>
            show w ∈ _
            exact pyMinBy_mem _ hmin
        · rw [if_neg h1]
          exact hdom0mem
      have hwincnt : (((buildGroups hits).lookup
            (winnerOf (buildGroups hits) dom0)).getD []).length =
          (((buildGroups hits).lookup dom0).getD []).length := by
        have := (List.mem_filter.mp hwintied).2
        exact of_decide_eq_true this
      have hwinkeys : winnerOf (buildGroups hits) dom0 ∈ (buildGroups hits).map (·.1) :=
        (List.mem_filter.mp hwintied).1
      refine ⟨winnerOf (buildGroups hits) dom0,
        (buildGroups_keys hits _).mp hwinkeys, ?_, ?_, ?_, ?_⟩
      · intro lg hlgpres
        have hlgkeys : lg ∈ (buildGroups hits).map (·.1) :=
          (buildGroups_keys hits lg).mpr hlgpres
        have := pyMaxBy_le _ hmax lg hlgkeys
        rw [← hcount lg, ← hcount (winnerOf (buildGroups hits) dom0), hwincnt]
        exact this
      · intro lg hlgpres hlgeq
        have hlgkeys : lg ∈ (buildGroups hits).map (·.1) :=
          (buildGroups_keys hits lg).mpr hlgpres
        have hlgtied : lg ∈ tiedOf (buildGroups hits) dom0 := by
          refine List.mem_filter.mpr ⟨hlgkeys, decide_eq_true ?_⟩
          rw [hcount, hcount dom0]
          rw [hlgeq, ← hcount, hwincnt, hcount]
        unfold winnerOf
        by_cases h1 : 1 < (tiedOf (buildGroups hits) dom0).length
        · rw [if_pos h1]
          cases hmin : pyMinBy (second_pos (buildGroups hits))
              (tiedOf (buildGroups hits) dom0) with
          | none =>
            exfalso
            cases htd : tiedOf (buildGroups hits) dom0 with
            | nil => rw [htd] at hdom0mem; cases hdom0mem
            | cons x xs => rw [htd] at hmin; cases hmin
          | some w =>
            show second_pos (buildGroups hits) w ≤ _
            exact pyMinBy_le _ hmin lg hlgtied
        · rw [if_neg h1]
          have hsingle : lg = dom0 := by
            push_neg at h1
            cases htd : tiedOf (buildGroups hits) dom0 with
            | nil => rw [htd] at hdom0mem; cases hdom0mem
            | cons x xs =>
              cases xs with
              | nil =>
                rw [htd] at hdom0mem hlgtied
                have h1l := List.mem_singleton.mp hdom0mem
                have h2l := List.mem_singleton.mp hlgtied
                exact h2l.trans h1l.symm
              | cons y ys =>
                rw [htd] at h1
                simp at h1
          rw [hsingle]
      · intro hlen2
        obtain ⟨a, b, tl, hsort, hma, hmb, hab, hmin1, hmin2⟩ :=
          earliest_two hits (winnerOf (buildGroups hits) dom0) hnodup hlen2
        refine ⟨a, b, hma, hmb, hab, hmin1, hmin2, ?_⟩
        rw [hres, hdb, hsort]
      · intro hlen2
        have hslen : (sortOn Prod.snd (((buildGroups hits).lookup
            (winnerOf (buildGroups hits) dom0)).getD [])).length < 2 := by
          rw [(sortOn_perm Prod.snd _).length_eq, hcount]
          exact hlen2
        rw [hres, hdb]
        cases hs : sortOn Prod.snd (((buildGroups hits).lookup
            (winnerOf (buildGroups hits) dom0)).getD []) with
        | nil => rfl
        | cons x rest =>
          cases rest with
          | nil => rfl
          | cons y ys =>
            exfalso
            rw [hs] at hslen
            simp only [List.length_cons] at hslen
            omega

/-- Witness for C1 at concrete inputs: a single hit yields `None`, and a
two-hit NFL list under an NFL hint yields that league's earliest two teams
via the theorem. -/
theorem claim_C1_choose_pair_witness :
    IngestTwitterCsv.choose_pair_from_hits [⟨"Chiefs", some "NFL", 0⟩] none = none ∧
    ∃ a b : IngestTwitterCsv.Hit,
      a ∈ IngestTwitterCsv.leagueHits
        [⟨"Chiefs", some "NFL", 5⟩, ⟨"Bills", some "NFL", 10⟩] (some "NFL") ∧
      b ∈ IngestTwitterCsv.leagueHits
        [⟨"Chiefs", some "NFL", 5⟩, ⟨"Bills", some "NFL", 10⟩] (some "NFL") ∧
      a.team ≠ b.team ∧
      (∀ c ∈ IngestTwitterCsv.leagueHits
        [⟨"Chiefs", some "NFL", 5⟩, ⟨"Bills", some "NFL", 10⟩] (some "NFL"),
        a.pos ≤ c.pos) ∧
      (∀ c ∈ IngestTwitterCsv.leagueHits
        [⟨"Chiefs", some "NFL", 5⟩, ⟨"Bills", some "NFL", 10⟩] (some "NFL"),
        c.team ≠ a.team → b.pos ≤ c.pos) ∧
      IngestTwitterCsv.choose_pair_from_hits
        [⟨"Chiefs", some "NFL", 5⟩, ⟨"Bills", some "NFL", 10⟩] (some "NFL") =
        some (a.team, b.team, some "NFL", "HINT_DOMINANT") := by
  constructor
  · exact (claim_C1_choose_pair [⟨"Chiefs", some "NFL", 0⟩] none (by decide)).1
      (by decide)
  · exact (claim_C1_choose_pair
      [⟨"Chiefs", some "NFL", 5⟩, ⟨"Bills", some "NFL", 10⟩] (some "NFL")
      (by decide)).2.1 "NFL" rfl (by decide)
